import Mathlib

/-!
Verification of the storage/concurrency core of the CMU-15445 database engine
(BusTub-style).  Each component is shallowly embedded as executable Lean
definitions translated from the C++ sources:

* `LockMgr`   — src/2021/src/concurrency/lock_manager.cpp
* `Replacer`  — src/2020/src/buffer/lru_replacer.cpp
* `BPM`       — src/2021/src/buffer/buffer_pool_manager_instance.cpp
* `BPT`       — src/2020/src/storage/index/b_plus_tree.cpp
* `EHT`       — src/2021/src/container/hash/extendible_hash_table.cpp

Concurrency is modelled sequentially: every C++ critical section (the code
holds one latch around each of the operations modelled here) becomes one
atomic Lean function; condition-variable waits are modelled by an explicit
environment parameter saying what the other threads do while this one is
blocked.  Machine integers are modelled as `Nat` (page ids, txn ids and
directory indices are non-negative and far from overflow on every path
modelled here); page byte buffers are abstracted to an opaque data value.
-/

namespace LockMgr

/-- Transaction lifecycle states (transaction.h). -/
inductive TState
  | growing
  | shrinking
  | committed
  | aborted
deriving DecidableEq, Repr

/-- Lock modes (lock_manager.h `LockMode`). -/
inductive Mode
  | shared
  | exclusive
deriving DecidableEq, Repr

/-- Isolation levels (transaction.h). -/
inductive Iso
  | readUncommitted
  | readCommitted
  | repeatableRead
deriving DecidableEq, Repr

/-- `LockRequest { txn_id_, lock_mode_, granted_ }` (lock_manager.h). -/
structure Request where
  txnId : Nat
  mode : Mode
  granted : Bool
deriving DecidableEq, Repr

/-- Point update of a transaction-indexed map (models writing through a
`Transaction *` obtained from `TransactionManager::GetTransaction`). -/
def setAt {α : Type} (m : Nat → α) (i : Nat) (v : α) : Nat → α :=
  fun j => if j = i then v else m j

/-- The wound-wait scan loop of `LockManager::NeedWait`
(lock_manager.cpp:237-260).  `ahead` is the portion of the request queue the
loop visits: every request strictly before the first one carrying the
caller's txn id.  Returns `(need_wait, (updated transaction states,
has_aborted))`.  A strictly younger requester (larger txn id) is set to
ABORTED when `situation1 || situation2` holds and it is not aborted already;
a strictly older requester sets `need_wait` when the caller wants X or the
older request is X. -/
def needWaitScan (selfId : Nat) (selfMode : Mode) (states : Nat → TState) :
    List Request → Bool × ((Nat → TState) × Bool)
  | [] => (false, (states, false))
  | r :: rest =>
    if selfId < r.txnId then
      -- situation1: self S and the earlier request is X; situation2: self X
      if (selfMode = Mode.shared ∧ r.mode = Mode.exclusive) ∨ selfMode = Mode.exclusive then
        if states r.txnId = TState.aborted then
          needWaitScan selfId selfMode states rest
        else
          let res := needWaitScan selfId selfMode (setAt states r.txnId TState.aborted) rest
          (res.1, (res.2.1, true))
      else
        needWaitScan selfId selfMode states rest
    else
      let nw1 : Bool := decide (selfMode = Mode.exclusive ∨ r.mode = Mode.exclusive)
      let res := needWaitScan selfId selfMode states rest
      (nw1 || res.1, res.2)

/-- `LockManager::NeedWait` (lock_manager.cpp:219-267).  `self` is the
request at the back of the queue (the caller pushed it just before); the
fast paths look at the front of the queue, otherwise the wound-wait scan
runs over the requests ahead of the caller's own. -/
def needWait (states : Nat → TState) (queue : List Request) (selfId : Nat) :
    Bool × ((Nat → TState) × Bool) :=
  match queue with
  | [] => (false, (states, false))  -- unreachable: the caller's request is in the queue
  | first :: rest =>
    let self := (first :: rest).getLastD ⟨0, Mode.shared, false⟩
    let ahead := (first :: rest).takeWhile (fun r => r.txnId ≠ selfId)
    if self.mode = Mode.shared then
      if first.txnId = selfId ∨ first.mode = Mode.shared then (false, (states, false))
      else needWaitScan selfId self.mode states ahead
    else
      if first.txnId = selfId then (false, (states, false))
      else needWaitScan selfId self.mode states ahead

/-- `LockManager::NeedWaitUpdate` as literally written
(lock_manager.cpp:269-292).  The function body in the source is missing one
closing brace (the inner `if (younger_txn->GetState() != ABORTED) {` block is
never closed), so the file does not compile as shipped; under the brace
structure as written the control flow is: a younger, not-yet-aborted request
ahead of the caller is wounded and the scan continues; a younger but
already-aborted request makes the function return `need_wait = true`
immediately; an OLDER request makes the function return immediately with
`need_wait` still `false`; if the scan reaches the caller's own request the
loop exits and control falls off the end of the function (C++ UB), modelled
here as returning the current `need_wait = false`.  `ha` threads the
`has_aborted` flag. -/
def needWaitUpdateAsWritten (selfId : Nat) (states : Nat → TState) (ha : Bool) :
    List Request → Bool × ((Nat → TState) × Bool)
  | [] => (false, (states, ha))
  | r :: rest =>
    if r.txnId = selfId then (false, (states, ha))
    else if selfId < r.txnId then
      if states r.txnId = TState.aborted then
        (true, (states, ha))
      else
        needWaitUpdateAsWritten selfId (setAt states r.txnId TState.aborted) true rest
    else
      (false, (states, ha))

/-- Modelled from the spec: the intended semantics of the upgrade-wait scan
(spec 4.4 and 9, which the missing brace in `NeedWaitUpdate` fails to
implement): wound every younger request ahead of the caller's own; wait iff
some older request remains ahead; otherwise grant. -/
def needWaitUpdateIntended (selfId : Nat) (states : Nat → TState) :
    List Request → Bool × (Nat → TState)
  | [] => (false, states)
  | r :: rest =>
    if r.txnId = selfId then (false, states)
    else if selfId < r.txnId then
      needWaitUpdateIntended selfId (setAt states r.txnId TState.aborted) rest
    else
      let res := needWaitUpdateIntended selfId states rest
      (true, res.2)

/-- Result of a lock-manager call: `ok b` models `return b`, `threw` models
`throw TransactionAbortException`, `blocked` models a thread suspended on
the queue's condition variable with no other thread scheduled to wake it. -/
inductive Outcome
  | ok (b : Bool)
  | threw
  | blocked
deriving DecidableEq, Repr

/-- The sequential state of the lock manager together with the transaction
objects it manipulates: per-txn state/isolation/lock sets, and the per-rid
request queues of `lock_table_`.  Rids are abstracted to `Nat`. -/
structure LM where
  states : Nat → TState
  iso : Nat → Iso
  sharedSets : Nat → List Nat
  exclusiveSets : Nat → List Nat
  queues : Nat → List Request
  upgrading : Nat → Option Nat

/-- `std::unordered_set::emplace`. -/
def insertRid (s : List Nat) (rid : Nat) : List Nat :=
  if rid ∈ s then s else rid :: s

/-- `std::unordered_set::erase`. -/
def eraseRid (s : List Nat) (rid : Nat) : List Nat :=
  s.filter (fun x => x ≠ rid)

/-- The grant loop after the wait (lock_manager.cpp:68-72 and 119-123):
mark every request carrying the caller's txn id granted. -/
def grantSelf (q : List Request) (tid : Nat) : List Request :=
  q.map (fun r => if r.txnId = tid then { r with granted := true } else r)

/-- Erase the first request carrying `tid` (the `Unlock` erase loop,
lock_manager.cpp:197-205). -/
def eraseFirstReq : List Request → Nat → List Request
  | [], _ => []
  | r :: rest, tid => if r.txnId = tid then rest else r :: eraseFirstReq rest tid

/-- State after `LockShared` has enqueued its request and recorded the rid in
the shared lock set (lock_manager.cpp:54-58), i.e. just before the wait loop. -/
def enqShared (lm : LM) (tid rid : Nat) : LM :=
  { lm with
    queues := setAt lm.queues rid (lm.queues rid ++ [⟨tid, Mode.shared, false⟩]),
    sharedSets := setAt lm.sharedSets tid (insertRid (lm.sharedSets tid) rid) }

/-- State after `LockExclusive` has enqueued its request and recorded the rid
in the exclusive lock set (lock_manager.cpp:103-107). -/
def enqExclusive (lm : LM) (tid rid : Nat) : LM :=
  { lm with
    queues := setAt lm.queues rid (lm.queues rid ++ [⟨tid, Mode.exclusive, false⟩]),
    exclusiveSets := setAt lm.exclusiveSets tid (insertRid (lm.exclusiveSets tid) rid) }

/-- `LockManager::LockShared` (lock_manager.cpp:21-75).  `wounded` is the
environment decision for the condvar wait: `true` means some other thread
sets this transaction to ABORTED while it is blocked (wound-wait), after
which the wakeup re-check returns false; `false` with a pending conflict
leaves the thread blocked. -/
def lockShared (lm : LM) (tid rid : Nat) (wounded : Bool) : Outcome × LM :=
  if lm.states tid = TState.aborted then (Outcome.ok false, lm)
  else if lm.iso tid = Iso.readUncommitted then
    (Outcome.ok false, { lm with states := setAt lm.states tid TState.aborted })
  else if lm.states tid ≠ TState.growing then
    (Outcome.threw, { lm with states := setAt lm.states tid TState.aborted })
  else if rid ∈ lm.sharedSets tid then (Outcome.ok true, lm)
  else
    let lm1 := enqShared lm tid rid
    let res := needWait lm1.states (lm1.queues rid) tid
    let lm2 := { lm1 with states := res.2.1 }
    if res.1 then
      if wounded then
        (Outcome.ok false, { lm2 with states := setAt lm2.states tid TState.aborted })
      else (Outcome.blocked, lm2)
    else
      (Outcome.ok true,
        { lm2 with
          queues := setAt lm2.queues rid (grantSelf (lm2.queues rid) tid),
          states := setAt lm2.states tid TState.growing })

/-- `LockManager::LockExclusive` (lock_manager.cpp:77-126). -/
def lockExclusive (lm : LM) (tid rid : Nat) (wounded : Bool) : Outcome × LM :=
  if lm.states tid = TState.aborted then (Outcome.ok false, lm)
  else if lm.states tid ≠ TState.growing then
    (Outcome.threw, { lm with states := setAt lm.states tid TState.aborted })
  else if rid ∈ lm.exclusiveSets tid then (Outcome.ok true, lm)
  else
    let lm1 := enqExclusive lm tid rid
    let res := needWait lm1.states (lm1.queues rid) tid
    let lm2 := { lm1 with states := res.2.1 }
    if res.1 then
      if wounded then
        (Outcome.ok false, { lm2 with states := setAt lm2.states tid TState.aborted })
      else (Outcome.blocked, lm2)
    else
      (Outcome.ok true,
        { lm2 with
          queues := setAt lm2.queues rid (grantSelf (lm2.queues rid) tid),
          states := setAt lm2.states tid TState.growing })

/-- `LockManager::LockUpgrade` (lock_manager.cpp:128-172).  The final loop of
the source iterates `for (auto iter : lock_queue->request_queue_)` BY VALUE:
the writes `iter.granted_ = true; iter.lock_mode_ = EXCLUSIVE` land on a
copy, so the queue is left unchanged; the writes through the `txn` pointer
(state, shared/exclusive lock sets) do take effect. -/
def lockUpgrade (lm : LM) (tid rid : Nat) (wounded : Bool) : Outcome × LM :=
  if lm.states tid = TState.aborted then (Outcome.ok false, lm)
  else if lm.states tid ≠ TState.growing then
    (Outcome.threw, { lm with states := setAt lm.states tid TState.aborted })
  else if rid ∈ lm.exclusiveSets tid then (Outcome.ok true, lm)
  else
    let res := needWaitUpdateAsWritten tid lm.states false (lm.queues rid)
    let lm1 := { lm with states := res.2.1 }
    if res.1 then
      if wounded then
        (Outcome.ok false, { lm1 with states := setAt lm1.states tid TState.aborted })
      else (Outcome.blocked, lm1)
    else
      if (lm1.queues rid).any (fun r => r.txnId = tid) then
        (Outcome.ok true,
          { lm1 with
            states := setAt lm1.states tid TState.growing,
            sharedSets := setAt lm1.sharedSets tid (eraseRid (lm1.sharedSets tid) rid),
            exclusiveSets := setAt lm1.exclusiveSets tid (insertRid (lm1.exclusiveSets tid) rid) })
      else (Outcome.ok true, lm1)

/-- `LockManager::Unlock` (lock_manager.cpp:174-217). -/
def unlock (lm : LM) (tid rid : Nat) : Bool × LM :=
  if rid ∉ lm.sharedSets tid ∧ rid ∉ lm.exclusiveSets tid then (false, lm)
  else
    let lm1 :=
      if lm.upgrading rid = some tid then
        { lm with upgrading := setAt lm.upgrading rid none }
      else lm
    if (lm1.queues rid).any (fun r => r.txnId = tid) then
      let lm2 := { lm1 with queues := setAt lm1.queues rid (eraseFirstReq (lm1.queues rid) tid) }
      let lm3 :=
        if lm2.states tid = TState.growing ∧ lm2.iso tid = Iso.repeatableRead then
          { lm2 with states := setAt lm2.states tid TState.shrinking }
        else lm2
      (true,
        { lm3 with
          sharedSets := setAt lm3.sharedSets tid (eraseRid (lm3.sharedSets tid) rid),
          exclusiveSets := setAt lm3.exclusiveSets tid (eraseRid (lm3.exclusiveSets tid) rid) })
    else (false, lm1)

/-- All transactions in GROWING state: the generic starting point for the
concrete test configurations below. -/
def allGrowing : Nat → TState := fun _ => TState.growing

end LockMgr

namespace LockMgr

theorem needWaitScan_only_wounds_younger (selfId : Nat) (selfMode : Mode)
    (states : Nat → TState) (l : List Request) (t : Nat)
    (h : (needWaitScan selfId selfMode states l).2.1 t ≠ states t) :
    selfId < t ∧ (needWaitScan selfId selfMode states l).2.1 t = TState.aborted ∧
      ∃ r ∈ l, r.txnId = t ∧ (selfMode = Mode.exclusive ∨ r.mode = Mode.exclusive) := by
  induction l generalizing states with
  | nil => simp [needWaitScan] at h
  | cons r rest ih =>
    by_cases h1 : selfId < r.txnId
    · by_cases h2 : (selfMode = Mode.shared ∧ r.mode = Mode.exclusive) ∨ selfMode = Mode.exclusive
      · by_cases h3 : states r.txnId = TState.aborted
        · simp only [needWaitScan, if_pos h1, if_pos h2, if_pos h3] at h ⊢
          obtain ⟨ha, hb, r', hr', hc⟩ := ih states h
          exact ⟨ha, hb, r', List.mem_cons_of_mem r hr', hc⟩
        · simp only [needWaitScan, if_pos h1, if_pos h2, if_neg h3] at h ⊢
          by_cases h4 :
              (needWaitScan selfId selfMode (setAt states r.txnId TState.aborted) rest).2.1 t =
                setAt states r.txnId TState.aborted t
          · rw [h4] at h ⊢
            have ht : t = r.txnId := by
              by_contra hne
              exact h (by simp [setAt, hne])
            subst ht
            refine ⟨h1, by simp [setAt], r, List.mem_cons_self r rest, rfl, ?_⟩
            rcases h2 with ⟨_, hx⟩ | hx
            · exact Or.inr hx
            · exact Or.inl hx
          · obtain ⟨ha, hb, r', hr', hc⟩ := ih (setAt states r.txnId TState.aborted) h4
            exact ⟨ha, hb, r', List.mem_cons_of_mem r hr', hc⟩
      · simp only [needWaitScan, if_pos h1, if_neg h2] at h ⊢
        obtain ⟨ha, hb, r', hr', hc⟩ := ih states h
        exact ⟨ha, hb, r', List.mem_cons_of_mem r hr', hc⟩
    · simp only [needWaitScan, if_neg h1] at h ⊢
      obtain ⟨ha, hb, r', hr', hc⟩ := ih states h
      exact ⟨ha, hb, r', List.mem_cons_of_mem r hr', hc⟩

/-- C1: wound-wait never wounds upward.  Whatever transaction-state map
`NeedWait` produces, the only transactions whose state it changed are
strictly younger than the requester (txn id strictly larger), they were set
to ABORTED, and each of them has a request in the queue whose mode conflicts
with the requester's requested mode (the mode of the request at the back of
the queue): the requester asked for X, or the queued request is X.  In
particular no transaction with a smaller (older) txn id is ever set to
ABORTED by the wait step of `LockShared`/`LockExclusive`. -/
theorem C1_needWait_wounds_only_younger (states : Nat → TState) (queue : List Request)
    (selfId t : Nat)
    (h : (needWait states queue selfId).2.1 t ≠ states t) :
    selfId < t ∧ (needWait states queue selfId).2.1 t = TState.aborted ∧
      ∃ r ∈ queue, r.txnId = t ∧
        ((queue.getLastD ⟨0, Mode.shared, false⟩).mode = Mode.exclusive ∨
          r.mode = Mode.exclusive) := by
  match queue with
  | [] => simp [needWait] at h
  | first :: rest =>
    rw [needWait] at h ⊢
    set self := (first :: rest).getLastD ⟨0, Mode.shared, false⟩ with hself
    set ahead := (first :: rest).takeWhile (fun r => r.txnId ≠ selfId) with hahead
    have lift : ∀ r ∈ ahead, r ∈ first :: rest := by
      intro r hr
      exact (List.takeWhile_sublist _).subset hr
    by_cases hm : self.mode = Mode.shared
    · rw [if_pos hm] at h ⊢
      by_cases hfront : first.txnId = selfId ∨ first.mode = Mode.shared
      · rw [if_pos hfront] at h; simp at h
      · rw [if_neg hfront] at h ⊢
        obtain ⟨ha, hb, r', hr', hc, hd⟩ := needWaitScan_only_wounds_younger selfId self.mode states ahead t h
        exact ⟨ha, hb, r', lift r' hr', hc, hd⟩
    · rw [if_neg hm] at h ⊢
      by_cases hfront : first.txnId = selfId
      · rw [if_pos hfront] at h; simp at h
      · rw [if_neg hfront] at h ⊢
        obtain ⟨ha, hb, r', hr', hc, hd⟩ := needWaitScan_only_wounds_younger selfId self.mode states ahead t h
        exact ⟨ha, hb, r', lift r' hr', hc, hd⟩

/-- Concrete queue for the C1 witness: a younger exclusive holder (txn 7)
ahead of the requesting txn 3's exclusive request. -/
def qW : List Request := [⟨7, Mode.exclusive, true⟩, ⟨3, Mode.exclusive, false⟩]

theorem C1_needWait_witness :
    (needWait allGrowing qW 3).2.1 7 ≠ allGrowing 7 ∧
      (3 < 7 ∧ (needWait allGrowing qW 3).2.1 7 = TState.aborted ∧
        ∃ r ∈ qW, r.txnId = 7 ∧
          ((qW.getLastD ⟨0, Mode.shared, false⟩).mode = Mode.exclusive ∨
            r.mode = Mode.exclusive)) :=
  ⟨by decide, C1_needWait_wounds_only_younger allGrowing qW 3 7 (by decide)⟩

end LockMgr

namespace LockMgr

/-- Upgrade queue for the C2/C3 analysis: one older granted shared holder
(txn 1) ahead of upgrading txn 5's own shared request. -/
def qUp : List Request := [⟨1, Mode.shared, true⟩, ⟨5, Mode.shared, true⟩]

/-- C2: the upgrade-wait predicate does NOT realize the spec's intended
semantics.  With a single OLDER granted shared request ahead of the caller,
the intended predicate waits (`true`), but `NeedWaitUpdate` as written
returns `false` (grant) because the older-requester iteration returns
immediately before `need_wait` is ever set (the missing brace places the
`need_wait = true` line inside the younger-requester branch and the final
`return` inside the loop). -/
theorem C2_needWaitUpdate_diverges_from_intent :
    (needWaitUpdateAsWritten 5 allGrowing false qUp).1 = false ∧
      (needWaitUpdateIntended 5 allGrowing qUp).1 = true ∧
      (needWaitUpdateAsWritten 5 allGrowing false qUp).1 ≠
        (needWaitUpdateIntended 5 allGrowing qUp).1 := by
  refine ⟨rfl, rfl, by decide⟩

/-- Lock-manager configuration for C3: txn 3 holds a granted S lock on rid 0
(its request is in the queue and rid 0 is in its shared lock set). -/
def lmUp : LM :=
  { states := allGrowing
    iso := fun _ => Iso.repeatableRead
    sharedSets := fun t => if t = 3 then [0] else []
    exclusiveSets := fun _ => []
    queues := fun r => if r = 0 then [⟨3, Mode.shared, true⟩] else []
    upgrading := fun _ => none }

/-- C3: a successful `LockUpgrade` moves the rid from the shared to the
exclusive lock set but does NOT rewrite the queued request: the final loop
iterates by value, so after the call returns true the request in the queue
still has mode SHARED.  Evaluated at the concrete failing input `lmUp`. -/
theorem C3_lockUpgrade_leaves_queue_request_shared :
    (lockUpgrade lmUp 3 0 false).1 = Outcome.ok true ∧
      (lockUpgrade lmUp 3 0 false).2.queues 0 = [⟨3, Mode.shared, true⟩] ∧
      0 ∈ (lockUpgrade lmUp 3 0 false).2.exclusiveSets 3 ∧
      0 ∉ (lockUpgrade lmUp 3 0 false).2.sharedSets 3 ∧
      ∀ r ∈ (lockUpgrade lmUp 3 0 false).2.queues 0,
        r.txnId = 3 → r.mode ≠ Mode.exclusive := by
  decide

theorem eraseFirstReq_append (l : List Request) (tid : Nat) (req : Request)
    (hreq : req.txnId = tid) (h : ∀ r ∈ l, r.txnId ≠ tid) :
    eraseFirstReq (l ++ [req]) tid = l := by
  induction l with
  | nil => simp [eraseFirstReq, hreq]
  | cons a l ih =>
    have ha : a.txnId ≠ tid := h a (List.mem_cons_self a l)
    simp only [List.cons_append, eraseFirstReq, if_neg ha]
    rw [show l.append [req] = l ++ [req] from rfl,
      ih (fun r hr => h r (List.mem_cons_of_mem a hr))]

end LockMgr

namespace LockMgr

@[simp]
theorem mem_insertRid (s : List Nat) (rid : Nat) : rid ∈ insertRid s rid := by
  by_cases h : rid ∈ s <;> simp [insertRid, h]

@[simp]
theorem not_mem_eraseRid (s : List Nat) (rid : Nat) : rid ∉ eraseRid s rid := by
  simp [eraseRid]

/-- C10: aborted-waiter residue.  `LockShared`/`LockExclusive` enqueue the
request and record the rid in the transaction's lock set before waiting; if
the transaction is wounded (found ABORTED) during the wait, the call returns
false while the ungranted request is still in the queue and the rid is still
in the lock set; a subsequent `Unlock` on the aborted transaction's behalf
removes both.  `hwS`/`hwX` say the freshly enqueued request is not
immediately grantable, so the call actually waits. -/
theorem C10_aborted_waiter_residue (lm : LM) (tid rid : Nat)
    (hg : lm.states tid = TState.growing)
    (hiso : lm.iso tid ≠ Iso.readUncommitted)
    (hs : rid ∉ lm.sharedSets tid)
    (hx : rid ∉ lm.exclusiveSets tid)
    (hclean : ∀ r ∈ lm.queues rid, r.txnId ≠ tid)
    (hwS : (needWait (enqShared lm tid rid).states ((enqShared lm tid rid).queues rid) tid).1
        = true)
    (hwX : (needWait (enqExclusive lm tid rid).states ((enqExclusive lm tid rid).queues rid)
        tid).1 = true) :
    ((lockShared lm tid rid true).1 = Outcome.ok false ∧
      (lockShared lm tid rid true).2.queues rid
        = lm.queues rid ++ [⟨tid, Mode.shared, false⟩] ∧
      rid ∈ (lockShared lm tid rid true).2.sharedSets tid ∧
      (unlock (lockShared lm tid rid true).2 tid rid).1 = true ∧
      (unlock (lockShared lm tid rid true).2 tid rid).2.queues rid = lm.queues rid ∧
      rid ∉ (unlock (lockShared lm tid rid true).2 tid rid).2.sharedSets tid ∧
      rid ∉ (unlock (lockShared lm tid rid true).2 tid rid).2.exclusiveSets tid) ∧
    ((lockExclusive lm tid rid true).1 = Outcome.ok false ∧
      (lockExclusive lm tid rid true).2.queues rid
        = lm.queues rid ++ [⟨tid, Mode.exclusive, false⟩] ∧
      rid ∈ (lockExclusive lm tid rid true).2.exclusiveSets tid ∧
      (unlock (lockExclusive lm tid rid true).2 tid rid).1 = true ∧
      (unlock (lockExclusive lm tid rid true).2 tid rid).2.queues rid = lm.queues rid ∧
      rid ∉ (unlock (lockExclusive lm tid rid true).2 tid rid).2.sharedSets tid ∧
      rid ∉ (unlock (lockExclusive lm tid rid true).2 tid rid).2.exclusiveSets tid) := by
  have hgne : ¬ lm.states tid = TState.aborted := by rw [hg]; decide
  have hgg : ¬ lm.states tid ≠ TState.growing := by rw [hg]; simp
  have heraseS :=
    eraseFirstReq_append (lm.queues rid) tid ⟨tid, Mode.shared, false⟩ rfl hclean
  have heraseX :=
    eraseFirstReq_append (lm.queues rid) tid ⟨tid, Mode.exclusive, false⟩ rfl hclean
  constructor
  · have hrun : lockShared lm tid rid true =
        (Outcome.ok false,
          { states := setAt
              (needWait (enqShared lm tid rid).states ((enqShared lm tid rid).queues rid)
                tid).2.1 tid TState.aborted,
            iso := lm.iso,
            sharedSets := setAt lm.sharedSets tid (insertRid (lm.sharedSets tid) rid),
            exclusiveSets := lm.exclusiveSets,
            queues := setAt lm.queues rid (lm.queues rid ++ [⟨tid, Mode.shared, false⟩]),
            upgrading := lm.upgrading }) := by
      rw [lockShared]
      rw [if_neg hgne, if_neg hiso, if_neg hgg, if_neg hs]
      simp only [enqShared] at hwS ⊢
      rw [hwS]
      simp [enqShared]
    rw [hrun]
    simp only []
    refine ⟨trivial, by simp [setAt], by simp [setAt], ?_⟩
    rw [unlock]
    rw [if_neg (by simp [setAt])]
    have hany : ((setAt lm.queues rid (lm.queues rid ++ [⟨tid, Mode.shared, false⟩]) rid).any
        (fun r => r.txnId = tid)) = true := by
      simp [setAt]
    by_cases hup : lm.upgrading rid = some tid <;>
      simp [hup, hany, setAt, heraseS]
  · have hrun : lockExclusive lm tid rid true =
        (Outcome.ok false,
          { states := setAt
              (needWait (enqExclusive lm tid rid).states
                ((enqExclusive lm tid rid).queues rid) tid).2.1 tid TState.aborted,
            iso := lm.iso,
            sharedSets := lm.sharedSets,
            exclusiveSets := setAt lm.exclusiveSets tid (insertRid (lm.exclusiveSets tid) rid),
            queues := setAt lm.queues rid (lm.queues rid ++ [⟨tid, Mode.exclusive, false⟩]),
            upgrading := lm.upgrading }) := by
      rw [lockExclusive]
      rw [if_neg hgne, if_neg hgg, if_neg hx]
      simp only [enqExclusive] at hwX ⊢
      rw [hwX]
      simp [enqExclusive]
    rw [hrun]
    simp only []
    refine ⟨trivial, by simp [setAt], by simp [setAt], ?_⟩
    rw [unlock]
    rw [if_neg (by simp [setAt])]
    have hany : ((setAt lm.queues rid (lm.queues rid ++ [⟨tid, Mode.exclusive, false⟩])
        rid).any (fun r => r.txnId = tid)) = true := by
      simp [setAt]
    by_cases hup : lm.upgrading rid = some tid <;>
      simp [hup, hany, setAt, heraseX]

end LockMgr

namespace LockMgr

/-- Witness configuration for C10: txn 1 holds a granted X lock on rid 0, so
txn 2's fresh S/X request must wait. -/
def lmW : LM :=
  { states := allGrowing
    iso := fun _ => Iso.repeatableRead
    sharedSets := fun _ => []
    exclusiveSets := fun t => if t = 1 then [0] else []
    queues := fun r => if r = 0 then [⟨1, Mode.exclusive, true⟩] else []
    upgrading := fun _ => none }

theorem C10_aborted_waiter_witness :
    (lockShared lmW 2 0 true).1 = Outcome.ok false ∧
      (lockShared lmW 2 0 true).2.queues 0 = lmW.queues 0 ++ [⟨2, Mode.shared, false⟩] ∧
      0 ∈ (lockShared lmW 2 0 true).2.sharedSets 2 ∧
      (unlock (lockShared lmW 2 0 true).2 2 0).1 = true ∧
      (lockExclusive lmW 2 0 true).1 = Outcome.ok false := by
  have h := C10_aborted_waiter_residue lmW 2 0 (by decide) (by decide) (by decide) (by decide)
    (by decide) (by decide) (by decide)
  exact ⟨h.1.1, h.1.2.1, h.1.2.2.1, h.1.2.2.2.1, h.2.1⟩

end LockMgr

namespace Replacer

/-- Operations on the LRU replacer (lru_replacer.cpp). -/
inductive ROp
  | unpin (f : Nat)
  | pin (f : Nat)
  | victim
deriving DecidableEq, Repr

/-- The replacer state is `lru_list_`: candidate frames in unpin order,
oldest at the front (`Unpin` pushes to the back, `Victim` pops the front).
Each entry additionally carries a ghost timestamp, the index in the
operation history of the `Unpin` call that inserted it; the C++ list is the
`Prod.fst` projection of this state.  `lru_map_` is the index `frame -> node`
used only for O(1) lookup and erase, so it has no separate model. -/
def frames (st : List (Nat × Nat)) : List Nat := st.map Prod.fst

/-- `lru_list_.erase(iter->second)` for the unique node of `f`
(lru_replacer.cpp:48): drop the first entry carrying frame `f`. -/
def eraseFrame : List (Nat × Nat) → Nat → List (Nat × Nat)
  | [], _ => []
  | p :: rest, f => if p.1 = f then rest else p :: eraseFrame rest f

/-- The frame `Victim` reports: the front of the list (lru_replacer.cpp:30),
or none when empty. -/
def victimOut (st : List (Nat × Nat)) : Option Nat := st.head?.map Prod.fst

/-- One replacer operation at history index `t` (lru_replacer.cpp:22-64):
`Unpin` is a no-op when the frame is already present, else appends it;
`Pin` erases the frame if present; `Victim` pops the front. -/
def stepR (st : List (Nat × Nat)) (t : Nat) : ROp → List (Nat × Nat)
  | ROp.unpin f => if f ∈ frames st then st else st ++ [(f, t)]
  | ROp.pin f => eraseFrame st f
  | ROp.victim => st.tail

def runFrom (st : List (Nat × Nat)) (t : Nat) : List ROp → List (Nat × Nat)
  | [] => st
  | op :: rest => runFrom (stepR st t op) (t + 1) rest

/-- Replacer state after running a history of operations from the empty
replacer. -/
def runR (ops : List ROp) : List (Nat × Nat) := runFrom [] 0 ops

/-- The history-indexed invariant: every candidate `(f, u)` was inserted by
the `Unpin` at history index `u` and no later `Pin f` occurred; timestamps
strictly increase along the list (front = earliest unpin); no frame occurs
twice. -/
def Inv (ops : List ROp) (st : List (Nat × Nat)) : Prop :=
  (∀ p ∈ st, ops.get? p.2 = some (ROp.unpin p.1) ∧
    ∀ j, p.2 < j → ops.get? j ≠ some (ROp.pin p.1)) ∧
  st.Pairwise (fun a b => a.2 < b.2) ∧
  (frames st).Nodup

theorem runFrom_append (st : List (Nat × Nat)) (t : Nat) (l1 l2 : List ROp) :
    runFrom st t (l1 ++ l2) = runFrom (runFrom st t l1) (t + l1.length) l2 := by
  induction l1 generalizing st t with
  | nil => simp [runFrom]
  | cons op l1 ih =>
    simp only [List.cons_append, runFrom, List.length_cons]
    rw [show l1.append l2 = l1 ++ l2 from rfl, ih,
      show t + 1 + l1.length = t + (l1.length + 1) by omega]

theorem runR_append_one (ops : List ROp) (op : ROp) :
    runR (ops ++ [op]) = stepR (runR ops) ops.length op := by
  simp [runR, runFrom_append, runFrom]

theorem eraseFrame_sublist (st : List (Nat × Nat)) (f : Nat) :
    (eraseFrame st f).Sublist st := by
  induction st with
  | nil => simp [eraseFrame]
  | cons p rest ih =>
    by_cases h : p.1 = f
    · simp only [eraseFrame, if_pos h]
      exact (List.sublist_cons_self p rest)
    · simp only [eraseFrame, if_neg h]
      exact ih.cons₂ p

theorem not_mem_frames_eraseFrame (st : List (Nat × Nat)) (f : Nat)
    (h : (frames st).Nodup) : f ∉ frames (eraseFrame st f) := by
  induction st with
  | nil => simp [eraseFrame, frames]
  | cons p rest ih =>
    simp only [frames, List.map_cons, List.nodup_cons] at h
    by_cases hp : p.1 = f
    · simp only [eraseFrame, if_pos hp]
      rw [← hp]
      exact fun hc => h.1 hc
    · simp only [eraseFrame, if_neg hp, frames, List.map_cons, List.mem_cons]
      rintro (rfl | hc)
      · exact hp rfl
      · exact ih h.2 hc

/-- Extending the history with an operation that does not pin any current
candidate preserves the invariant on an unchanged state. -/
theorem Inv.extend (ops : List ROp) (op : ROp) (st : List (Nat × Nat))
    (h : Inv ops st) (hop : ∀ p ∈ st, op ≠ ROp.pin p.1) : Inv (ops ++ [op]) st := by
  obtain ⟨hmem, hpw, hnd⟩ := h
  refine ⟨?_, hpw, hnd⟩
  intro p hp
  obtain ⟨hu, hnopin⟩ := hmem p hp
  have hlt : p.2 < ops.length := by
    rcases List.get?_eq_some.mp hu with ⟨hw, _⟩
    exact hw
  refine ⟨by rw [List.get?_append hlt]; exact hu, ?_⟩
  intro j hj
  rcases lt_trichotomy j ops.length with hle | heq | hgt
  · rw [List.get?_append hle]
    exact hnopin j hj
  · subst heq
    rw [List.get?_concat_length]
    intro hc
    exact hop p hp (Option.some.inj hc)
  · rw [List.get?_eq_none.mpr (by simpa using hgt)]
    exact fun hc => Option.noConfusion hc

/-- A sublist of the state satisfies the invariant for the same history. -/
theorem Inv.sublist (ops : List ROp) (st st' : List (Nat × Nat))
    (h : Inv ops st) (hsub : st'.Sublist st) : Inv ops st' :=
  ⟨fun p hp => h.1 p (hsub.subset hp), h.2.1.sublist hsub,
    h.2.2.sublist (hsub.map Prod.fst)⟩

theorem timestamps_lt (ops : List ROp) (st : List (Nat × Nat)) (h : Inv ops st) :
    ∀ p ∈ st, p.2 < ops.length := by
  intro p hp
  rcases List.get?_eq_some.mp (h.1 p hp).1 with ⟨hw, _⟩
  exact hw

/-- The invariant holds of every reachable replacer state. -/
theorem runR_inv (ops : List ROp) : Inv ops (runR ops) := by
  induction ops using List.reverseRecOn with
  | nil => exact ⟨by simp [runR, runFrom], by simp [runR, runFrom], by simp [runR, runFrom, frames]⟩
  | append_singleton ops op ih =>
    rw [runR_append_one]
    rcases op with f | f | _
    · -- Unpin
      by_cases hf : f ∈ frames (runR ops)
      · simp only [stepR, if_pos hf]
        exact ih.extend ops (ROp.unpin f) _ (fun p _ => by intro hc; exact ROp.noConfusion hc)
      · simp only [stepR, if_neg hf]
        have base := ih.extend ops (ROp.unpin f) _ (fun p _ => by intro hc; exact ROp.noConfusion hc)
        obtain ⟨hmem, hpw, hnd⟩ := base
        have hts := timestamps_lt ops _ ih
        refine ⟨?_, ?_, ?_⟩
        · intro p hp
          rcases List.mem_append.mp hp with hp | hp
          · exact hmem p hp
          · rcases List.mem_singleton.mp hp with rfl
            refine ⟨by rw [List.get?_concat_length], ?_⟩
            intro j hj
            rw [List.get?_eq_none.mpr (by simpa using hj)]
            exact fun hc => Option.noConfusion hc
        · rw [List.pairwise_append]
          refine ⟨hpw, List.pairwise_singleton _ _, ?_⟩
          intro a ha b hb
          rcases List.mem_singleton.mp hb with rfl
          exact hts a ha
        · simp only [frames, List.map_append, List.map_singleton]
          rw [List.nodup_append]
          exact ⟨hnd, List.nodup_singleton f, by simpa [frames] using fun hc => hf hc⟩
    · -- Pin
      have hsub := eraseFrame_sublist (runR ops) f
      have base := Inv.sublist ops _ _ ih hsub
      refine base.extend ops (ROp.pin f) _ ?_
      intro p hp hc
      have hpf : p.1 = f := (ROp.pin.inj hc).symm
      have hmemf : p.1 ∈ frames (eraseFrame (runR ops) f) :=
        List.mem_map_of_mem Prod.fst hp
      rw [hpf] at hmemf
      exact not_mem_frames_eraseFrame (runR ops) f ih.2.2 hmemf
    · -- Victim
      have hsub : (runR ops).tail.Sublist (runR ops) := List.tail_sublist _
      have base := Inv.sublist ops _ _ ih hsub
      exact base.extend ops ROp.victim _ (fun p _ => by intro hc; exact ROp.noConfusion hc)

end Replacer

namespace Replacer

/-- C4: LRU replacer ordering contract.  After any history `ops` of
Pin/Unpin/Victim operations run from the empty replacer: `Unpin` of a
current candidate is a no-op; after `Pin f` the frame `f` is not a
candidate; `Victim` reports none exactly when there is no candidate; and
when `Victim` reports `g`, the candidate `g` was inserted by the `Unpin` at
history index `u`, no `Pin g` occurred after `u` (so `g` is not currently
pinned), every other current candidate has a strictly later unpin index
(so `g` is the earliest-unpinned surviving candidate), and `Victim` removes
exactly that front entry. -/
theorem C4_lru_replacer (ops : List ROp) (t : Nat) :
    (∀ f, f ∈ frames (runR ops) → stepR (runR ops) t (ROp.unpin f) = runR ops) ∧
    (∀ f, f ∉ frames (stepR (runR ops) t (ROp.pin f))) ∧
    (victimOut (runR ops) = none ↔ runR ops = []) ∧
    (∀ g, victimOut (runR ops) = some g →
      ∃ u, (g, u) ∈ runR ops ∧ ops.get? u = some (ROp.unpin g) ∧
        (∀ j, u < j → ops.get? j ≠ some (ROp.pin g)) ∧
        (∀ p ∈ runR ops, p ≠ (g, u) → u < p.2) ∧
        stepR (runR ops) t ROp.victim = (runR ops).tail) := by
  have hinv := runR_inv ops
  refine ⟨?_, ?_, ?_, ?_⟩
  · intro f hf
    simp [stepR, hf]
  · intro f
    exact not_mem_frames_eraseFrame (runR ops) f hinv.2.2
  · cases runR ops <;> simp [victimOut]
  · intro g hg
    match hst : runR ops with
    | [] => rw [hst] at hg; simp [victimOut] at hg
    | (g', u) :: rest =>
      rw [hst] at hg
      simp only [victimOut, List.head?_cons, Option.map_some] at hg
      have hgg : g' = g := Option.some.inj hg
      subst hgg
      rw [hst] at hinv
      obtain ⟨hu, hnopin⟩ := hinv.1 (g', u) (List.mem_cons_self _ _)
      refine ⟨u, List.mem_cons_self _ _, hu, hnopin, ?_, by simp [stepR]⟩
      intro p hp hne
      rcases List.mem_cons.mp hp with rfl | hp
      · exact absurd rfl hne
      · exact (List.pairwise_cons.mp hinv.2.1).1 p hp

/-- History for the C4 witness: unpin 1, unpin 2, pin 1; the surviving
earliest-unpinned candidate is frame 2. -/
def opsW : List ROp := [ROp.unpin 1, ROp.unpin 2, ROp.pin 1]

theorem C4_lru_witness :
    stepR (runR opsW) 99 (ROp.unpin 2) = runR opsW ∧
      2 ∉ frames (stepR (runR opsW) 99 (ROp.pin 2)) ∧
      ∃ u, (2, u) ∈ runR opsW ∧ opsW.get? u = some (ROp.unpin 2) ∧
        (∀ j, u < j → opsW.get? j ≠ some (ROp.pin 2)) ∧
        (∀ p ∈ runR opsW, p ≠ (2, u) → u < p.2) ∧
        stepR (runR opsW) 99 ROp.victim = (runR opsW).tail := by
  have h := C4_lru_replacer opsW 99
  exact ⟨h.1 2 (by decide), h.2.1 2, h.2.2.2 2 (by decide)⟩

end Replacer

namespace Util

/-- Point update of a map modelled as a function. -/
def upd {κ α : Type} [DecidableEq κ] (m : κ → α) (i : κ) (v : α) : κ → α :=
  fun j => if j = i then v else m j

@[simp]
theorem upd_same {κ α : Type} [DecidableEq κ] (m : κ → α) (i : κ) (v : α) :
    upd m i v i = v := by simp [upd]

@[simp]
theorem upd_other {κ α : Type} [DecidableEq κ] (m : κ → α) (i j : κ) (v : α)
    (h : j ≠ i) : upd m i v j = m j := by simp [upd, h]

end Util

namespace BPM

open Util

/-- One buffer-pool frame: resident page id (`-1` = INVALID_PAGE_ID), pin
count, dirty flag, and the page bytes abstracted to one value. -/
structure Frame where
  pageId : Int
  pinCount : Int
  dirty : Bool
  data : Nat
deriving DecidableEq, Repr

/-- `BufferPoolManagerInstance` state: `page_table_` (page id to frame
index), the frame array `pages_`, `free_list_`, the replacer's candidate
list, disk contents by page id, the DiskManager's `DeallocatePage` call log,
and the page-id allocation fields. -/
structure BP where
  pageTable : List (Int × Nat)
  pages : Nat → Frame
  freeList : List Nat
  replacer : List Nat
  disk : Int → Nat
  deallocLog : List Int
  nextPageId : Int
  numInstances : Nat
  instanceIndex : Nat

/-- The constructor (buffer_pool_manager_instance.cpp:23-43):
`next_page_id_ = instance_index`, empty page table, all frames free. -/
def mkBP (poolSize numInstances instanceIndex : Nat) : BP :=
  { pageTable := []
    pages := fun _ => ⟨-1, 0, false, 0⟩
    freeList := List.range poolSize
    replacer := []
    disk := fun _ => 0
    deallocLog := []
    nextPageId := (instanceIndex : Int)
    numInstances := numInstances
    instanceIndex := instanceIndex }

/-- `FlushPgImp` (buffer_pool_manager_instance.cpp:50-62): if the page is
not resident return false; else clear the dirty flag and write the frame's
bytes to disk. -/
def flushPgImp (bp : BP) (pid : Int) : Bool × BP :=
  match bp.pageTable.lookup pid with
  | none => (false, bp)
  | some fid =>
    let page := bp.pages fid
    (true,
      { bp with
        pages := upd bp.pages fid { page with dirty := false },
        disk := upd bp.disk pid page.data })

/-- The iteration of `FlushAllPgsImp` (buffer_pool_manager_instance.cpp:64-74)
over the remaining page-table entries: write each resident page's bytes to
disk.  Note the loop does NOT touch `is_dirty_`. -/
def flushAllGo : List (Int × Nat) → BP → BP
  | [], bp => bp
  | e :: rest, bp =>
    flushAllGo rest { bp with disk := upd bp.disk e.1 ((bp.pages e.2).data) }

/-- `FlushAllPgsImp`. -/
def flushAllPgsImp (bp : BP) : BP := flushAllGo bp.pageTable bp

/-- Calling `FlushPgImp` once for each page id in the given list. -/
def flushSeq : List Int → BP → BP
  | [], bp => bp
  | pid :: rest, bp => flushSeq rest (flushPgImp bp pid).2

/-- `AllocatePage` (buffer_pool_manager_instance.cpp:229-234): return
`next_page_id_` and advance it by `num_instances_`. -/
def allocatePage (bp : BP) : Int × BP :=
  (bp.nextPageId, { bp with nextPageId := bp.nextPageId + bp.numInstances })

/-- The page id returned by the `n`-th `AllocatePage` call (counting from 0). -/
def allocN : Nat → BP → Int × BP
  | 0, bp => allocatePage bp
  | n + 1, bp => allocN n (allocatePage bp).2

/-- `DeletePgImp` (buffer_pool_manager_instance.cpp:165-197).  Note
`DeallocatePage(page_id)` is invoked FIRST, before the residency and
pin-count checks. -/
def deletePgImp (bp : BP) (pid : Int) : Bool × BP :=
  let bp0 := { bp with deallocLog := bp.deallocLog ++ [pid] }
  match bp0.pageTable.lookup pid with
  | none => (true, bp0)
  | some fid =>
    let page := bp0.pages fid
    if 0 < page.pinCount then (false, bp0)
    else
      let bp1 := if page.dirty then { bp0 with disk := upd bp0.disk pid page.data } else bp0
      (true,
        { bp1 with
          replacer := bp1.replacer.erase fid,
          pageTable := bp1.pageTable.filter (fun e => e.1 ≠ pid),
          pages := upd bp1.pages fid ⟨-1, 0, false, 0⟩,
          freeList := bp1.freeList ++ [fid] })

theorem allocN_val (n : Nat) (bp : BP) :
    (allocN n bp).1 = bp.nextPageId + n * bp.numInstances := by
  induction n generalizing bp with
  | zero => simp [allocN, allocatePage]
  | succ n ih =>
    rw [allocN, ih]
    simp only [allocatePage]
    push_cast
    ring

/-- C8: sharded page-id allocation.  For an instance constructed with
`num_instances = N` and `instance_index = k`, the n-th `AllocatePage` call
(counting from 0) returns `k + n * N`, and that page id satisfies
`pid mod N = k` (the assertion `ValidatePageId` checks exactly this). -/
theorem C8_allocate_sharded (poolSize N k n : Nat) (hkN : k < N) :
    (allocN n (mkBP poolSize N k)).1 = ((k + n * N : Nat) : Int) ∧
      (k + n * N) % N = k := by
  constructor
  · rw [allocN_val]
    simp only [mkBP]
    push_cast
    ring
  · rw [Nat.add_mul_mod_self_right]
    exact Nat.mod_eq_of_lt hkN

theorem C8_allocate_witness :
    2 < 4 ∧ ((allocN 3 (mkBP 8 4 2)).1 = ((2 + 3 * 4 : Nat) : Int) ∧
      (2 + 3 * 4) % 4 = 2) :=
  ⟨by decide, C8_allocate_sharded 8 4 2 3 (by decide)⟩

/-- C9: `DeletePage` deallocates before it decides.  When the page is
resident with a positive pin count, the call returns false, and the
resulting state is the original one except that `pid` has been appended to
the Disk Manager's deallocation log: the frame, its page-table mapping, pin
count and dirty flag are untouched while the page id is already deallocated
on disk. -/
theorem C9_delete_deallocates_first (bp : BP) (pid : Int) (fid : Nat)
    (hl : bp.pageTable.lookup pid = some fid)
    (hpin : 0 < (bp.pages fid).pinCount) :
    deletePgImp bp pid = (false, { bp with deallocLog := bp.deallocLog ++ [pid] }) := by
  simp only [deletePgImp, hl, hpin, if_pos]

/-- Concrete buffer pool for the C9 witness: page 5 resident in frame 0 with
pin count 1. -/
def bpW : BP :=
  { pageTable := [(5, 0)]
    pages := fun f => if f = 0 then ⟨5, 1, true, 42⟩ else ⟨-1, 0, false, 0⟩
    freeList := [1]
    replacer := []
    disk := fun _ => 0
    deallocLog := []
    nextPageId := 0
    numInstances := 1
    instanceIndex := 0 }

theorem C9_delete_witness :
    bpW.pageTable.lookup 5 = some 0 ∧ 0 < (bpW.pages 0).pinCount ∧
      deletePgImp bpW 5 = (false, { bpW with deallocLog := bpW.deallocLog ++ [5] }) :=
  ⟨rfl, by decide, C9_delete_deallocates_first bpW 5 0 rfl (by decide)⟩

end BPM

namespace BPM

open Util

/-- Disk contents after writing every page-table entry's frame bytes, in
entry order (`data` maps frame index to its bytes). -/
def writeAllD (data : Nat → Nat) : List (Int × Nat) → (Int → Nat) → (Int → Nat)
  | [], d => d
  | e :: rest, d => writeAllD data rest (upd d e.1 (data e.2))

/-- Disk contents after flushing the listed page ids one by one through the
page table `pt`. -/
def flushDiskFold (pt : List (Int × Nat)) (data : Nat → Nat) : List Int → (Int → Nat) → (Int → Nat)
  | [], d => d
  | pid :: rest, d =>
    match pt.lookup pid with
    | none => flushDiskFold pt data rest d
    | some fid => flushDiskFold pt data rest (upd d pid (data fid))

/-- Frame array after flushing the listed page ids one by one: each resident
flush clears the frame's dirty flag. -/
def flushPagesFold (pt : List (Int × Nat)) : List Int → (Nat → Frame) → (Nat → Frame)
  | [], pg => pg
  | pid :: rest, pg =>
    match pt.lookup pid with
    | none => flushPagesFold pt rest pg
    | some fid => flushPagesFold pt rest (upd pg fid { pg fid with dirty := false })

theorem flushAllGo_spec (l : List (Int × Nat)) (bp : BP) :
    flushAllGo l bp = { bp with disk := writeAllD (fun f => (bp.pages f).data) l bp.disk } := by
  induction l generalizing bp with
  | nil => rfl
  | cons e rest ih =>
    rw [flushAllGo, ih]
    rfl

theorem flushSeq_spec (pids : List Int) (bp : BP) :
    flushSeq pids bp = { bp with
      pages := flushPagesFold bp.pageTable pids bp.pages,
      disk := flushDiskFold bp.pageTable (fun f => (bp.pages f).data) pids bp.disk } := by
  induction pids generalizing bp with
  | nil => rfl
  | cons pid rest ih =>
    rw [flushSeq]
    match h : bp.pageTable.lookup pid with
    | none =>
      rw [show (flushPgImp bp pid).2 = bp by simp [flushPgImp, h], ih]
      simp only [flushPagesFold, flushDiskFold, h]
    | some fid =>
      have hstep : (flushPgImp bp pid).2 =
          { bp with
            pages := upd bp.pages fid { bp.pages fid with dirty := false },
            disk := upd bp.disk pid ((bp.pages fid).data) } := by
        simp [flushPgImp, h]
      rw [hstep, ih]
      have hdata : (fun f =>
          ((upd bp.pages fid { bp.pages fid with dirty := false } : Nat → Frame) f).data) =
          (fun f => (bp.pages f).data) := by
        funext f
        by_cases hf : f = fid
        · subst hf; simp [upd]
        · simp [upd, hf]
      simp only [hdata, flushPagesFold, flushDiskFold, h]

theorem lookup_cons_of_ne (pt : List (Int × Nat)) (e : Int × Nat) (pid : Int)
    (h : pid ≠ e.1) : (e :: pt).lookup pid = pt.lookup pid := by
  rcases e with ⟨k, v⟩
  have hbeq : (pid == k) = false := beq_eq_false_iff_ne.mpr (by simpa using h)
  simp [List.lookup, hbeq]

theorem flushDiskFold_skipHead (pt : List (Int × Nat)) (e : Int × Nat) (data : Nat → Nat)
    (pids : List Int) (d : Int → Nat) (h : ∀ p ∈ pids, p ≠ e.1) :
    flushDiskFold (e :: pt) data pids d = flushDiskFold pt data pids d := by
  induction pids generalizing d with
  | nil => rfl
  | cons pid rest ih =>
    have hpid : pid ≠ e.1 := h pid (List.mem_cons_self _ _)
    have hrest : ∀ p ∈ rest, p ≠ e.1 := fun p hp => h p (List.mem_cons_of_mem _ hp)
    simp only [flushDiskFold, lookup_cons_of_ne pt e pid hpid]
    match pt.lookup pid with
    | none => exact ih d hrest
    | some fid => exact ih _ hrest

theorem flushDiskFold_keys (data : Nat → Nat) (pt : List (Int × Nat)) (d : Int → Nat)
    (hnd : (pt.map Prod.fst).Nodup) :
    flushDiskFold pt data (pt.map Prod.fst) d = writeAllD data pt d := by
  induction pt generalizing d with
  | nil => rfl
  | cons e rest ih =>
    simp only [List.map_cons, List.nodup_cons] at hnd
    have hhead : (e :: rest).lookup e.1 = some e.2 := by
      rcases e with ⟨k, v⟩
      simp [List.lookup]
    simp only [List.map_cons, flushDiskFold, hhead]
    rw [flushDiskFold_skipHead rest e data (rest.map Prod.fst) _
      (fun p hp => fun hc => hnd.1 (hc ▸ hp)), ih _ hnd.2]
    rfl

theorem writeAllD_notin (data : Nat → Nat) (pt : List (Int × Nat)) (d : Int → Nat)
    (pid : Int) (h : pid ∉ pt.map Prod.fst) : writeAllD data pt d pid = d pid := by
  induction pt generalizing d with
  | nil => rfl
  | cons e rest ih =>
    simp only [List.map_cons, List.mem_cons] at h
    push_neg at h
    rw [writeAllD, ih _ h.2, upd_other _ _ _ _ h.1]

theorem writeAllD_mem (data : Nat → Nat) (pt : List (Int × Nat)) (d : Int → Nat)
    (pid : Int) (fid : Nat) (hnd : (pt.map Prod.fst).Nodup) (hmem : (pid, fid) ∈ pt) :
    writeAllD data pt d pid = data fid := by
  induction pt generalizing d with
  | nil => simp at hmem
  | cons e rest ih =>
    simp only [List.map_cons, List.nodup_cons] at hnd
    rcases List.mem_cons.mp hmem with rfl | hmem
    · rw [writeAllD, writeAllD_notin data rest _ pid hnd.1, upd_same]
    · exact ih _ hnd.2 hmem

theorem flushPagesFold_fields (pt : List (Int × Nat)) (pids : List Int)
    (pg : Nat → Frame) (f : Nat) :
    (flushPagesFold pt pids pg f).pageId = (pg f).pageId ∧
      (flushPagesFold pt pids pg f).pinCount = (pg f).pinCount ∧
      (flushPagesFold pt pids pg f).data = (pg f).data := by
  induction pids generalizing pg with
  | nil => exact ⟨rfl, rfl, rfl⟩
  | cons pid rest ih =>
    rw [flushPagesFold]
    match pt.lookup pid with
    | none => exact ih pg
    | some fid =>
      obtain ⟨h1, h2, h3⟩ := ih (upd pg fid { pg fid with dirty := false })
      by_cases hf : f = fid
      · subst hf
        exact ⟨by rw [h1]; simp [upd], by rw [h2]; simp [upd], by rw [h3]; simp [upd]⟩
      · exact ⟨by rw [h1]; simp [upd, hf], by rw [h2]; simp [upd, hf], by rw [h3]; simp [upd, hf]⟩

end BPM

namespace BPM

open Util

/-- Concrete buffer pool for the C5 counterexample: page 0 resident in frame
0 and dirty. -/
def bpF : BP :=
  { pageTable := [(0, 0)]
    pages := fun f => if f = 0 then ⟨0, 0, true, 7⟩ else ⟨-1, 0, false, 0⟩
    freeList := [1]
    replacer := [0]
    disk := fun _ => 0
    deallocLog := []
    nextPageId := 1
    numInstances := 1
    instanceIndex := 0 }

/-- C5 counterexample: `FlushAll` is NOT the iteration of `FlushPage` over
every page-table mapping.  On a pool with one resident dirty page,
`FlushAllPgsImp` leaves the frame's dirty flag set while iterated
`FlushPgImp` clears it, so the resulting states differ. -/
theorem C5_flushAll_counterexample :
    ((flushAllPgsImp bpF).pages 0).dirty = true ∧
      ((flushSeq (bpF.pageTable.map Prod.fst) bpF).pages 0).dirty = false ∧
      flushAllPgsImp bpF ≠ flushSeq (bpF.pageTable.map Prod.fst) bpF := by
  refine ⟨rfl, rfl, ?_⟩
  intro h
  have hd := congrArg (fun bp => (bp.pages 0).dirty) h
  exact absurd hd (by decide)

/-- C5 amended: `FlushAll` writes every resident page's bytes to disk and
agrees with iterating `FlushPage` over every page-table mapping on the disk
contents and on every state component except the frames' dirty flags:
`FlushAll` leaves the frame array (hence every dirty flag) untouched, while
iterated `FlushPage` additionally clears the dirty flag of every flushed
frame (page id, pin count and bytes agree). -/
theorem C5_flushAll_amended (bp : BP) (hnd : (bp.pageTable.map Prod.fst).Nodup) :
    (flushAllPgsImp bp).disk = (flushSeq (bp.pageTable.map Prod.fst) bp).disk ∧
      (flushAllPgsImp bp).pageTable = (flushSeq (bp.pageTable.map Prod.fst) bp).pageTable ∧
      (flushAllPgsImp bp).freeList = (flushSeq (bp.pageTable.map Prod.fst) bp).freeList ∧
      (flushAllPgsImp bp).replacer = (flushSeq (bp.pageTable.map Prod.fst) bp).replacer ∧
      (flushAllPgsImp bp).deallocLog = (flushSeq (bp.pageTable.map Prod.fst) bp).deallocLog ∧
      (flushAllPgsImp bp).pages = bp.pages ∧
      (∀ f, ((flushSeq (bp.pageTable.map Prod.fst) bp).pages f).pageId = (bp.pages f).pageId ∧
        ((flushSeq (bp.pageTable.map Prod.fst) bp).pages f).pinCount = (bp.pages f).pinCount ∧
        ((flushSeq (bp.pageTable.map Prod.fst) bp).pages f).data = (bp.pages f).data) ∧
      (∀ pid fid, (pid, fid) ∈ bp.pageTable →
        (flushAllPgsImp bp).disk pid = (bp.pages fid).data) := by
  rw [flushAllPgsImp, flushAllGo_spec, flushSeq_spec]
  refine ⟨?_, rfl, rfl, rfl, rfl, rfl, ?_, ?_⟩
  · exact (flushDiskFold_keys (fun f => (bp.pages f).data) bp.pageTable bp.disk hnd).symm
  · intro f
    exact flushPagesFold_fields bp.pageTable (bp.pageTable.map Prod.fst) bp.pages f
  · intro pid fid hmem
    exact writeAllD_mem (fun f => (bp.pages f).data) bp.pageTable bp.disk pid fid hnd hmem

theorem C5_flushAll_amended_witness :
    (bpF.pageTable.map Prod.fst).Nodup ∧
      (flushAllPgsImp bpF).disk = (flushSeq (bpF.pageTable.map Prod.fst) bpF).disk ∧
      (flushAllPgsImp bpF).pages = bpF.pages :=
  ⟨by decide,
    (C5_flushAll_amended bpF (by decide)).1,
    (C5_flushAll_amended bpF (by decide)).2.2.2.2.2.1⟩

end BPM

namespace BPT

/-- A B+-tree page: an internal node holds `(key_i, child_pid_i)` with
`key_0` unused (separator convention), a leaf holds sorted `(key, value)`
pairs plus `next_page_id_` of the leaf chain (`-1` = none). -/
inductive BNode
  | internal (entries : List (Nat × Int))
  | leaf (entries : List (Nat × Nat)) (next : Int)
deriving DecidableEq, Repr

/-- The tree state: the page store (page id to node), `root_page_id_`
(`-1` = INVALID_PAGE_ID), the header page's record of the root, the buffer
pool's page-id allocation counter, and the two fan-out bounds. -/
structure Tree where
  store : List (Int × BNode)
  rootPageId : Int
  headerRoot : Int
  nextPid : Int
  leafMaxSize : Nat
  internalMaxSize : Nat

/-- Modelled from the spec: `BPlusTreeLeafPage::Lookup`
(b_plus_tree_leaf_page.cpp is not under src/) — binary search for the first
key `>= k` and an equality check, rendered as the equivalent scan on the
sorted array. -/
def leafLookup (k : Nat) : List (Nat × Nat) → Option Nat
  | [] => none
  | e :: rest => if e.1 = k then some e.2 else leafLookup k rest

/-- Modelled from the spec: `BPlusTreeLeafPage::Insert` — find the first key
`>= k`; if it equals `k` the key is a duplicate and the array is returned
unchanged (same size), otherwise the pair is inserted there. -/
def leafInsert (k v : Nat) : List (Nat × Nat) → List (Nat × Nat)
  | [] => [(k, v)]
  | e :: rest =>
    if k < e.1 then (k, v) :: e :: rest
    else if k = e.1 then e :: rest
    else e :: leafInsert k v rest

/-- Modelled from the spec: the scan of `BPlusTreeInternalPage::Lookup` —
the child pointer of the last entry (beyond the dummy first) whose key is
`<= k`; `c` is the best child so far. -/
def internalChild (k : Nat) (c : Int) : List (Nat × Int) → Int
  | [] => c
  | e :: rest => if e.1 ≤ k then internalChild k e.2 rest else c

/-- Modelled from the spec: `BPlusTreeInternalPage::Lookup` — start from
child 0 (whose key is the unused separator). -/
def internalLookup (k : Nat) : List (Nat × Int) → Int
  | [] => -1
  | e :: rest => internalChild k e.2 rest

/-- The descent of `FindLeafPageByOperation` (b_plus_tree.cpp:493-556) with
neither `leftMost` nor `rightMost`: follow `Lookup(key)` children from `pid`
down to a leaf and return its page id, entries and next pointer.  `fuel`
bounds the depth; it is a modelling device only (the C++ loop terminates on
any acyclic tree). -/
def findLeaf (store : List (Int × BNode)) : Nat → Int → Nat → Option (Int × List (Nat × Nat) × Int)
  | 0, _, _ => none
  | fuel + 1, pid, k =>
    match store.lookup pid with
    | none => none
    | some (BNode.leaf entries next) => some (pid, entries, next)
    | some (BNode.internal entries) => findLeaf store fuel (internalLookup k entries) k

/-- `BPlusTree::GetValue` (b_plus_tree.cpp:36-58): descend to the leaf and
look the key up there. -/
def getValue (t : Tree) (fuel k : Nat) : Option Nat :=
  match findLeaf t.store fuel t.rootPageId k with
  | none => none
  | some (_, entries, _) => leafLookup k entries

/-- Rewrite the node stored under `pid` (writing through the fetched page). -/
def storeSet (s : List (Int × BNode)) (pid : Int) (n : BNode) : List (Int × BNode) :=
  s.map (fun e => if e.1 = pid then (pid, n) else e)

/-- Modelled from the spec: `BPlusTreeInternalPage::InsertNodeAfter` —
insert `(key, newPid)` immediately after the entry whose child is `oldPid`. -/
def insertNodeAfter (oldPid : Int) (key : Nat) (newPid : Int) : List (Nat × Int) → List (Nat × Int)
  | [] => []
  | e :: rest =>
    if e.2 = oldPid then e :: (key, newPid) :: rest
    else e :: insertNodeAfter oldPid key newPid rest

/-- Result of the recursive insert walk below: `dup` (key already present,
nothing written), `done` (inserted, no split at this level), or `splitUp`
(inserted and this node split: the separator key and new sibling's page id
must be inserted into the parent, the root case creating a new root). -/
inductive InsRes
  | dup
  | done (store : List (Int × BNode)) (nextPid : Int)
  | splitUp (store : List (Int × BNode)) (nextPid : Int) (sepKey : Nat) (newPid : Int)
deriving DecidableEq, Repr

/-- `InsertIntoLeaf` together with `Split`/`InsertIntoParent`
(b_plus_tree.cpp:95-233), rendered as one recursion over the descent path:
the C++ walks back up through parent pointers, this model propagates the
`splitUp` result up through the recursion — the pages written are the same.
Leaf split: when the leaf reaches `leaf_max_size_` after insert, keep the
lower half (`size / 2`), move the upper half to a fresh sibling, relink the
leaf chain, and hand the sibling's first key up.  Internal split mirrors it
with the first moved key promoted. -/
def insGo (leafMax internalMax : Nat) :
    Nat → List (Int × BNode) → Int → Int → Nat → Nat → Option InsRes
  | 0, _, _, _, _, _ => none
  | fuel + 1, store, nextPid, pid, k, v =>
    match store.lookup pid with
    | none => none
    | some (BNode.leaf entries next) =>
      let newEntries := leafInsert k v entries
      if newEntries.length = entries.length then some InsRes.dup
      else if newEntries.length < leafMax then
        some (InsRes.done (storeSet store pid (BNode.leaf newEntries next)) nextPid)
      else
        let keep := newEntries.length / 2
        let leftE := newEntries.take keep
        let rightE := newEntries.drop keep
        let store1 := storeSet store pid (BNode.leaf leftE nextPid)
        let store2 := (nextPid, BNode.leaf rightE next) :: store1
        some (InsRes.splitUp store2 (nextPid + 1) (rightE.headD (0, 0)).1 nextPid)
    | some (BNode.internal entries) =>
      match insGo leafMax internalMax fuel store nextPid (internalLookup k entries) k v with
      | none => none
      | some InsRes.dup => some InsRes.dup
      | some (InsRes.done store1 nextPid1) => some (InsRes.done store1 nextPid1)
      | some (InsRes.splitUp store1 nextPid1 sepKey newPid) =>
        let newEntries := insertNodeAfter (internalLookup k entries) sepKey newPid entries
        if newEntries.length < internalMax then
          some (InsRes.done (storeSet store1 pid (BNode.internal newEntries)) nextPid1)
        else
          let keep := (newEntries.length + 1) / 2
          let leftE := newEntries.take keep
          let rightE := newEntries.drop keep
          let store2 := storeSet store1 pid (BNode.internal leftE)
          let store3 := (nextPid1, BNode.internal rightE) :: store2
          some (InsRes.splitUp store3 (nextPid1 + 1) (rightE.headD (0, 0)).1 nextPid1)

/-- `BPlusTree::Insert` (b_plus_tree.cpp:61-75): `StartNewTree` on an empty
tree, otherwise `InsertIntoLeaf`; a `splitUp` reaching the root creates a
new root and updates `root_page_id_` and the header record
(`InsertIntoParent` root case, b_plus_tree.cpp:187-209). -/
def insertB (t : Tree) (fuel k v : Nat) : Bool × Tree :=
  if t.rootPageId = -1 then
    (true,
      { t with
        store := (t.nextPid, BNode.leaf [(k, v)] (-1)) :: t.store,
        rootPageId := t.nextPid, headerRoot := t.nextPid, nextPid := t.nextPid + 1 })
  else
    match insGo t.leafMaxSize t.internalMaxSize fuel t.store t.nextPid t.rootPageId k v with
    | none => (false, t)
    | some InsRes.dup => (false, t)
    | some (InsRes.done store1 nextPid1) =>
      (true, { t with store := store1, nextPid := nextPid1 })
    | some (InsRes.splitUp store1 nextPid1 sepKey newPid) =>
      (true,
        { t with
          store := (nextPid1, BNode.internal [(0, t.rootPageId), (sepKey, newPid)]) :: store1,
          rootPageId := nextPid1, headerRoot := nextPid1, nextPid := nextPid1 + 1 })

/-- Leaf pages keep strictly sorted keys (the documented structural
invariant); internal pages are unconstrained for this claim. -/
def nodeSortedB : BNode → Bool
  | BNode.internal _ => true
  | BNode.leaf entries _ => decide ((entries.map Prod.fst).Pairwise (· < ·))

end BPT

namespace BPT

theorem leafLookup_some_mem (k v : Nat) (l : List (Nat × Nat))
    (h : leafLookup k l = some v) : k ∈ l.map Prod.fst := by
  induction l with
  | nil => simp [leafLookup] at h
  | cons e rest ih =>
    by_cases he : e.1 = k
    · simp [he]
    · rw [leafLookup, if_neg he] at h
      simp [ih h]

theorem leafInsert_of_lookup_sorted (k v v0 : Nat) (l : List (Nat × Nat))
    (hs : (l.map Prod.fst).Pairwise (· < ·)) (hl : leafLookup k l = some v0) :
    leafInsert k v l = l := by
  induction l with
  | nil => simp [leafLookup] at hl
  | cons e rest ih =>
    simp only [List.map_cons, List.pairwise_cons] at hs
    by_cases he : e.1 = k
    · rw [leafInsert, if_neg (by omega), if_pos he.symm]
    · rw [leafLookup, if_neg he] at hl
      have hk : k ∈ rest.map Prod.fst := leafLookup_some_mem k v0 rest hl
      have helt : e.1 < k := hs.1 k hk
      rw [leafInsert, if_neg (by omega), if_neg (by omega), ih hs.2 hl]

theorem lookup_some_mem {β : Type} [DecidableEq β] (s : List (Int × β)) (pid : Int) (n : β)
    (h : s.lookup pid = some n) : (pid, n) ∈ s := by
  induction s with
  | nil => simp at h
  | cons e rest ih =>
    rcases e with ⟨k, m⟩
    rw [List.lookup_cons] at h
    by_cases hk : pid = k
    · subst hk
      rw [show (pid == pid) = true by simp] at h
      obtain rfl : m = n := Option.some.inj h
      exact List.mem_cons_self _ _
    · rw [show (pid == k) = false from beq_eq_false_iff_ne.mpr hk] at h
      exact List.mem_cons_of_mem _ (ih h)

theorem insGo_dup (leafMax internalMax : Nat) (store : List (Int × BNode)) (nextPid : Int)
    (hs : ∀ e ∈ store, nodeSortedB e.2 = true) :
    ∀ (fuel : Nat) (pid : Int) (k v : Nat) (lpid : Int) (entries : List (Nat × Nat))
      (next : Int) (v0 : Nat),
      findLeaf store fuel pid k = some (lpid, entries, next) →
      leafLookup k entries = some v0 →
      insGo leafMax internalMax fuel store nextPid pid k v = some InsRes.dup := by
  intro fuel
  induction fuel with
  | zero =>
    intro pid k v lpid entries next v0 hf _
    simp [findLeaf] at hf
  | succ fuel ih =>
    intro pid k v lpid entries next v0 hf hl
    rw [findLeaf] at hf
    rw [insGo]
    match hlook : store.lookup pid with
    | none => rw [hlook] at hf; simp at hf
    | some (BNode.leaf e2 n2) =>
      rw [hlook] at hf
      simp only [Option.some.injEq, Prod.mk.injEq] at hf
      obtain ⟨-, h2, -⟩ := hf
      subst h2
      have hsort : (e2.map Prod.fst).Pairwise (· < ·) := by
        have := hs _ (lookup_some_mem store pid _ hlook)
        simpa [nodeSortedB] using this
      have heq := leafInsert_of_lookup_sorted k v v0 e2 hsort hl
      simp only [hlook]
      simp [heq]
    | some (BNode.internal e2) =>
      rw [hlook] at hf
      simp only [hlook]
      rw [ih (internalLookup k e2) k v lpid entries next v0 hf hl]

/-- C6: duplicate insert is a pure no-op.  On any tree whose leaves keep
strictly sorted keys (the documented invariant) and whose root is valid, if
`GetValue` finds `k`, then `Insert(k, v)` returns false and the final state
is literally the initial one: no page in the store (hence no leaf-chain
pointer), not `root_page_id_`, not the header record and not the allocation
counter is modified. -/
theorem C6_duplicate_insert_is_noop (t : Tree) (fuel k v v0 : Nat)
    (hroot : t.rootPageId ≠ -1)
    (hs : ∀ e ∈ t.store, nodeSortedB e.2 = true)
    (hfound : getValue t fuel k = some v0) :
    insertB t fuel k v = (false, t) := by
  rw [getValue] at hfound
  match hf : findLeaf t.store fuel t.rootPageId k with
  | none => rw [hf] at hfound; simp at hfound
  | some (lpid, entries, next) =>
    rw [hf] at hfound
    simp only [] at hfound
    rw [insertB, if_neg hroot,
      insGo_dup t.leafMaxSize t.internalMaxSize t.store t.nextPid hs fuel t.rootPageId k v
        lpid entries next v0 hf hfound]

/-- Concrete two-level tree for the C6 witness: root internal page 1 over
leaves 2 (`[1, 2]`) and 3 (`[5, 7]`) chained 2 -> 3. -/
def tW : Tree :=
  { store := [(1, BNode.internal [(0, 2), (5, 3)]),
              (2, BNode.leaf [(1, 10), (2, 20)] 3),
              (3, BNode.leaf [(5, 50), (7, 70)] (-1))]
    rootPageId := 1
    headerRoot := 1
    nextPid := 4
    leafMaxSize := 4
    internalMaxSize := 4 }

theorem C6_duplicate_witness :
    tW.rootPageId ≠ -1 ∧ (∀ e ∈ tW.store, nodeSortedB e.2 = true) ∧
      getValue tW 3 5 = some 50 ∧ insertB tW 3 5 99 = (false, tW) :=
  ⟨by decide, by decide, by decide,
    C6_duplicate_insert_is_noop tW 3 5 99 50 (by decide) (by decide) (by decide)⟩

end BPT

namespace EHT

open Util

/-- `MAX_BUCKET_DEPTH`: modelled from the spec (`MAX_DEPTH`,
hash_table_directory_page.h is not under src/): the directory holds
`2 ^ MAX_BUCKET_DEPTH` slots, so no local depth may exceed it. -/
def MAX_BUCKET_DEPTH : Nat := 9

/-- The directory page: `global_depth_`, `local_depths_[]`, `bucket_page_ids_[]`
(arrays modelled as total functions; only indices below `2 ^ g` are
meaningful). -/
structure Dir where
  g : Nat
  ld : Nat → Nat
  pid : Nat → Nat

/-- The hash-table state: the directory, every bucket page's readable
`(key, value)` array indexed by bucket page id, and the buffer pool's
page-id allocation counter (`NewPage` returns `nextPid`). -/
structure HT where
  dir : Dir
  buckets : Nat → List (Nat × Nat)
  nextPid : Nat

/-- `KeyToDirectoryIndex`: `Hash(key) & GetGlobalDepthMask()`
(extendible_hash_table.cpp:55-58); masking with `2^g - 1` is mod `2^g`. -/
def keyIdx (hash : Nat → Nat) (d : Dir) (k : Nat) : Nat := hash k % 2 ^ d.g

/-- Modelled from the spec: `HashTableBucketPage::Insert`
(hash_table_bucket_page.cpp is not under src/) — reject an exact `(k, v)`
duplicate, else append to the readable array. -/
def bktInsert (b : List (Nat × Nat)) (k v : Nat) : Bool × List (Nat × Nat) :=
  if (k, v) ∈ b then (false, b) else (true, b ++ [(k, v)])

/-- Modelled from the spec: `HashTableBucketPage::Remove` — remove the
`(k, v)` pair if present. -/
def bktRemove (b : List (Nat × Nat)) (k v : Nat) : Bool × List (Nat × Nat) :=
  if (k, v) ∈ b then (true, b.erase (k, v)) else (false, b)

/-- Modelled from the spec: `IncrGlobalDepth` — increment `global_depth_`
after copying the first `2^g` bucket page ids and local depths into the
next `2^g` slots (logical directory doubling). -/
def incrGlobalDepth (d : Dir) : Dir :=
  { g := d.g + 1,
    ld := fun i => if i < 2 ^ (d.g + 1) then d.ld (i % 2 ^ d.g) else d.ld i,
    pid := fun i => if i < 2 ^ (d.g + 1) then d.pid (i % 2 ^ d.g) else d.pid i }

/-- The pair of directory loops of `SplitInsert`
(extendible_hash_table.cpp:212-233): starting from `idx` and stepping by
`diff` downwards and upwards, write `v` into every slot below `size` in the
congruence class of `idx` modulo `diff`. -/
def updClass (f : Nat → Nat) (size idx diff v : Nat) : Nat → Nat :=
  fun i => if i < size ∧ i % diff = idx % diff then v else f i

/-- The directory rewriting of `SplitInsert`
(extendible_hash_table.cpp:205-233) after the possible doubling:
`IncrLocalDepth(splitIdx)`, set the split image's local depth and bucket
page id, then the four loops writing the split bucket over `splitIdx`'s
congruence class modulo `2^(sdepth+1)` and the image bucket over the
image's. -/
def splitDir (d1 : Dir) (splitIdx sdepth splitPid imagePid : Nat) : Dir :=
  let d2 : Dir := { d1 with ld := upd d1.ld splitIdx (sdepth + 1) }
  let imageIdx := splitIdx ^^^ 2 ^ sdepth
  let d3 : Dir := { d2 with ld := upd d2.ld imageIdx (sdepth + 1) }
  let d4 : Dir := { d3 with pid := upd d3.pid imageIdx imagePid }
  let diff := 2 ^ (sdepth + 1)
  let size := 2 ^ d4.g
  let d5 : Dir := { d4 with pid := updClass d4.pid size splitIdx diff splitPid,
                            ld := updClass d4.ld size splitIdx diff (sdepth + 1) }
  { d5 with pid := updClass d5.pid size imageIdx diff imagePid,
            ld := updClass d5.ld size imageIdx diff (sdepth + 1) }

/-- `SplitInsert` without its trailing re-insert
(extendible_hash_table.cpp:166-253): returns `none` when the bucket's local
depth has reached `MAX_BUCKET_DEPTH` (insert fails, nothing changed), else
the state after the split: possible directory doubling, a fresh image
bucket, local depth `d+1` on both congruence classes, and the origin
bucket's entries rehashed over the two buckets by
`Hash(key) & GetLocalDepthMask` via the rewritten directory. -/
def splitStep (hash : Nat → Nat) (ht : HT) (k : Nat) : Option HT :=
  let d0 := ht.dir
  let splitIdx := keyIdx hash d0 k
  let sdepth := d0.ld splitIdx
  if MAX_BUCKET_DEPTH ≤ sdepth then none
  else
    let d1 := if sdepth = d0.g then incrGlobalDepth d0 else d0
    let splitPid := d1.pid (keyIdx hash d1 k)
    let origin := ht.buckets splitPid
    let imagePid := ht.nextPid
    let d6 := splitDir d1 splitIdx sdepth splitPid imagePid
    let diff := 2 ^ (sdepth + 1)
    let splitE := origin.filter (fun e => d6.pid (hash e.1 % diff) = splitPid)
    let imageE := origin.filter (fun e => ¬ d6.pid (hash e.1 % diff) = splitPid)
    some { dir := d6,
           buckets := upd (upd ht.buckets splitPid splitE) imagePid imageE,
           nextPid := ht.nextPid + 1 }

/-- `Insert` (extendible_hash_table.cpp:137-163) with `SplitInsert`'s
trailing retry (line 255) unfolded into fuel-bounded recursion: if the
target bucket is not full, insert there (false on exact duplicate);
otherwise split and retry from the top. -/
def insertHT (hash : Nat → Nat) (cap : Nat) : Nat → HT → Nat → Nat → Bool × HT
  | 0, ht, _, _ => (false, ht)
  | fuel + 1, ht, k, v =>
    let pid := ht.dir.pid (keyIdx hash ht.dir k)
    let b := ht.buckets pid
    if b.length < cap then
      let res := bktInsert b k v
      (res.1, { ht with buckets := upd ht.buckets pid res.2 })
    else
      match splitStep hash ht k with
      | none => (false, ht)
      | some ht1 => insertHT hash cap fuel ht1 k v

/-- Modelled from the spec: `CanShrink` — every local depth of the current
directory is strictly below the global depth. -/
def canShrink (d : Dir) : Bool := decide (∀ i < 2 ^ d.g, d.ld i < d.g)

/-- The `while (CanShrink()) DecrGlobalDepth()` loop
(extendible_hash_table.cpp:355-357); the fuel `d.g` suffices because each
iteration decrements `g`. -/
def shrinkGo : Nat → Dir → Dir
  | 0, d => d
  | n + 1, d => if canShrink d then shrinkGo n { d with g := d.g - 1 } else d

def shrinkDir (d : Dir) : Dir := shrinkGo d.g d

/-- The directory rewriting of `Merge` (extendible_hash_table.cpp:342-353):
point the target slot at the image bucket, decrement both local depths, then
the loop rewriting every slot below the directory size that holds either
bucket's page id to the image bucket with the target's (decremented) local
depth. -/
def mergeDir (d0 : Dir) (targetIdx imageIdx targetPid imagePid ldT : Nat) : Dir :=
  let d1 : Dir := { d0 with pid := upd d0.pid targetIdx imagePid }
  let d2 : Dir := { d1 with ld := upd d1.ld targetIdx (ldT - 1) }
  let d3 : Dir := { d2 with ld := upd d2.ld imageIdx (ldT - 1) }
  let size := 2 ^ d3.g
  { d3 with
    pid := fun i =>
      if i < size ∧ (d3.pid i = targetPid ∨ d3.pid i = imagePid) then imagePid
      else d3.pid i,
    ld := fun i =>
      if i < size ∧ (d3.pid i = targetPid ∨ d3.pid i = imagePid) then ldT - 1
      else d3.ld i }

/-- `Merge` (extendible_hash_table.cpp:295-360): no-op unless the target
index is in range, its local depth is positive and equal to its split
image's, and the target bucket is still empty; then point the target slot at
the image bucket, decrement both local depths, rewrite every slot holding
either bucket's page id to the image bucket with the decremented depth,
delete the target bucket page, and shrink the directory while possible. -/
def mergeHT (ht : HT) (targetIdx : Nat) : HT :=
  let d0 := ht.dir
  if 2 ^ d0.g ≤ targetIdx then ht
  else
    let targetPid := d0.pid targetIdx
    let imageIdx := targetIdx ^^^ 2 ^ (d0.ld targetIdx - 1)
    let ldT := d0.ld targetIdx
    if ldT = 0 then ht
    else if ¬ ldT = d0.ld imageIdx then ht
    else if ¬ (ht.buckets targetPid).isEmpty then ht
    else
      { dir := shrinkDir (mergeDir d0 targetIdx imageIdx targetPid (d0.pid imageIdx) ldT),
        buckets := upd ht.buckets targetPid [],
        nextPid := ht.nextPid }

/-- `Remove` (extendible_hash_table.cpp:262-289): remove the pair from the
target bucket; if the bucket became empty, attempt `Merge` on its index. -/
def removeHT (hash : Nat → Nat) (ht : HT) (k v : Nat) : Bool × HT :=
  let idx := keyIdx hash ht.dir k
  let pid := ht.dir.pid idx
  let res := bktRemove (ht.buckets pid) k v
  let ht1 := { ht with buckets := upd ht.buckets pid res.2 }
  if res.2.isEmpty then (res.1, mergeHT ht1 idx) else (res.1, ht1)

/-- The lazily created initial table (`FetchDirectoryPage`,
extendible_hash_table.cpp:67-95): directory page (page 0) with
`global_depth = 0`, all local depths 0, slot 0 pointing at a fresh bucket
(page 1); the next page the pool will hand out is 2. -/
def initHT : HT :=
  { dir := { g := 0, ld := fun _ => 0, pid := fun i => if i = 0 then 1 else 0 },
    buckets := fun _ => [],
    nextPid := 2 }

/-- A hash-table operation. -/
inductive HOp
  | ins (k v : Nat)
  | rem (k v : Nat)
deriving DecidableEq, Repr

/-- Run a history of operations; every `Insert` gets enough fuel for its
split retries (a bucket's local depth grows with every split, so
`MAX_BUCKET_DEPTH + 2` rounds always suffice). -/
def runHT (hash : Nat → Nat) (cap : Nat) : List HOp → HT → HT
  | [], ht => ht
  | HOp.ins k v :: rest, ht =>
    runHT hash cap rest (insertHT hash cap (MAX_BUCKET_DEPTH + 2) ht k v).2
  | HOp.rem k v :: rest, ht => runHT hash cap rest (removeHT hash ht k v).2

/-- The claimed directory invariant: every local depth is at most the global
depth, and two slots hold the same bucket page id exactly when they agree on
the low `local_depth` bits. -/
def DirInv (d : Dir) : Prop :=
  ∀ i, i < 2 ^ d.g → (d.ld i ≤ d.g ∧
    ∀ j, j < 2 ^ d.g → (d.pid i = d.pid j ↔ i % 2 ^ d.ld i = j % 2 ^ d.ld i))

/-- Slots sharing a bucket share its local depth. -/
def LdConsist (d : Dir) : Prop :=
  ∀ i, i < 2 ^ d.g → ∀ j, j < 2 ^ d.g → d.pid i = d.pid j → d.ld i = d.ld j

/-- Every bucket page id in the directory is below the allocation counter,
so a fresh page id differs from every bucket in the directory. -/
def Fresh (ht : HT) : Prop := ∀ i, i < 2 ^ ht.dir.g → ht.dir.pid i < ht.nextPid

def InvHT (ht : HT) : Prop := DirInv ht.dir ∧ LdConsist ht.dir ∧ Fresh ht

end EHT

namespace EHT

theorem mod_pow_descend {a b : Nat} (d e : Nat) (hde : d ≤ e)
    (h : a % 2 ^ e = b % 2 ^ e) : a % 2 ^ d = b % 2 ^ d := by
  have h2 : (2 : Nat) ^ d ∣ 2 ^ e := pow_dvd_pow 2 hde
  calc a % 2 ^ d = a % 2 ^ e % 2 ^ d := (Nat.mod_mod_of_dvd a h2).symm
    _ = b % 2 ^ e % 2 ^ d := by rw [h]
    _ = b % 2 ^ d := Nat.mod_mod_of_dvd b h2

theorem mod_two_pow_eq_iff_testBit (a b n : Nat) :
    a % 2 ^ n = b % 2 ^ n ↔ ∀ i, i < n → a.testBit i = b.testBit i := by
  constructor
  · intro h i hi
    have := congrArg (fun x => x.testBit i) h
    simpa [Nat.testBit_mod_two_pow, hi] using this
  · intro h
    apply Nat.eq_of_testBit_eq
    intro i
    rw [Nat.testBit_mod_two_pow, Nat.testBit_mod_two_pow]
    by_cases hi : i < n
    · simp [hi, h i hi]
    · simp [hi]

/-- Flipping bit `d` does not change the value modulo `2^d`. -/
theorem xor_two_pow_mod_self (a d : Nat) : (a ^^^ 2 ^ d) % 2 ^ d = a % 2 ^ d := by
  rw [mod_two_pow_eq_iff_testBit]
  intro i hi
  rw [Nat.testBit_xor, Nat.testBit_two_pow]
  simp [show ¬ d = i by omega]

/-- Flipping bit `d` changes the value modulo `2^(d+1)`. -/
theorem xor_two_pow_mod_succ_ne (a d : Nat) :
    (a ^^^ 2 ^ d) % 2 ^ (d + 1) ≠ a % 2 ^ (d + 1) := by
  intro h
  have hb := (mod_two_pow_eq_iff_testBit _ _ _).mp h d (by omega)
  rw [Nat.testBit_xor, Nat.testBit_two_pow] at hb
  cases hx : a.testBit d <;> simp [hx] at hb

/-- A slot agreeing with `a` on the low `d` bits agrees with `a` or with
`a` image-flipped at bit `d` on the low `d+1` bits. -/
theorem mod_succ_cases {m a d : Nat} (h : m % 2 ^ d = a % 2 ^ d) :
    m % 2 ^ (d + 1) = a % 2 ^ (d + 1) ∨
      m % 2 ^ (d + 1) = (a ^^^ 2 ^ d) % 2 ^ (d + 1) := by
  by_cases hb : m.testBit d = a.testBit d
  · left
    rw [mod_two_pow_eq_iff_testBit]
    intro i hi
    rcases Nat.lt_or_ge i d with hlt | hge
    · exact (mod_two_pow_eq_iff_testBit _ _ _).mp h i hlt
    · have hid : i = d := by omega
      subst hid
      exact hb
  · right
    rw [mod_two_pow_eq_iff_testBit]
    intro i hi
    rw [Nat.testBit_xor, Nat.testBit_two_pow]
    rcases Nat.lt_or_ge i d with hlt | hge
    · rw [show decide (d = i) = false by simp; omega]
      simp [(mod_two_pow_eq_iff_testBit _ _ _).mp h i hlt]
    · have hid : i = d := by omega
      subst hid
      simp only [decide_eq_true_eq]
      cases hm : m.testBit i <;> cases ha : a.testBit i <;> simp_all

end EHT

namespace EHT

open Util

theorem dirInv_incr (d : Dir) (hInv : DirInv d) : DirInv (incrGlobalDepth d) := by
  intro i hi
  have hi' : i < 2 ^ (d.g + 1) := hi
  have him : i % 2 ^ d.g < 2 ^ d.g := Nat.mod_lt _ (Nat.two_pow_pos _)
  obtain ⟨hld, hiff⟩ := hInv (i % 2 ^ d.g) him
  have hldi : (incrGlobalDepth d).ld i = d.ld (i % 2 ^ d.g) := by
    simp [incrGlobalDepth, hi']
  have hpi : (incrGlobalDepth d).pid i = d.pid (i % 2 ^ d.g) := by
    simp [incrGlobalDepth, hi']
  constructor
  · rw [hldi, show (incrGlobalDepth d).g = d.g + 1 from rfl]
    omega
  · intro j hj
    have hj' : j < 2 ^ (d.g + 1) := hj
    have hjm : j % 2 ^ d.g < 2 ^ d.g := Nat.mod_lt _ (Nat.two_pow_pos _)
    have hpj : (incrGlobalDepth d).pid j = d.pid (j % 2 ^ d.g) := by
      simp [incrGlobalDepth, hj']
    rw [hldi, hpi, hpj, hiff (j % 2 ^ d.g) hjm]
    have hdvd : (2 : Nat) ^ d.ld (i % 2 ^ d.g) ∣ 2 ^ d.g := pow_dvd_pow 2 hld
    rw [Nat.mod_mod_of_dvd i hdvd, Nat.mod_mod_of_dvd j hdvd]

theorem ldConsist_incr (d : Dir) (hCon : LdConsist d) : LdConsist (incrGlobalDepth d) := by
  intro i hi j hj hpid
  have hi' : i < 2 ^ (d.g + 1) := hi
  have hj' : j < 2 ^ (d.g + 1) := hj
  have him : i % 2 ^ d.g < 2 ^ d.g := Nat.mod_lt _ (Nat.two_pow_pos _)
  have hjm : j % 2 ^ d.g < 2 ^ d.g := Nat.mod_lt _ (Nat.two_pow_pos _)
  have hpi : (incrGlobalDepth d).pid i = d.pid (i % 2 ^ d.g) := by
    simp [incrGlobalDepth, hi']
  have hpj : (incrGlobalDepth d).pid j = d.pid (j % 2 ^ d.g) := by
    simp [incrGlobalDepth, hj']
  have hldi : (incrGlobalDepth d).ld i = d.ld (i % 2 ^ d.g) := by
    simp [incrGlobalDepth, hi']
  have hldj : (incrGlobalDepth d).ld j = d.ld (j % 2 ^ d.g) := by
    simp [incrGlobalDepth, hj']
  rw [hldi, hldj]
  exact hCon _ him _ hjm (by rw [← hpi, ← hpj, hpid])

theorem pids_incr (d : Dir) (n : Nat) (hFr : ∀ i, i < 2 ^ d.g → d.pid i < n) :
    ∀ i, i < 2 ^ (incrGlobalDepth d).g → (incrGlobalDepth d).pid i < n := by
  intro i hi
  have hi' : i < 2 ^ (d.g + 1) := hi
  have him : i % 2 ^ d.g < 2 ^ d.g := Nat.mod_lt _ (Nat.two_pow_pos _)
  have hpi : (incrGlobalDepth d).pid i = d.pid (i % 2 ^ d.g) := by
    simp [incrGlobalDepth, hi']
  rw [hpi]
  exact hFr _ him

theorem splitDir_g (d1 : Dir) (s sd sp ip : Nat) : (splitDir d1 s sd sp ip).g = d1.g := rfl

theorem splitDir_pid (d1 : Dir) (s sd sp ip : Nat)
    (hs : s < 2 ^ d1.g) (him : s ^^^ 2 ^ sd < 2 ^ d1.g) (m : Nat) :
    (splitDir d1 s sd sp ip).pid m =
      if m < 2 ^ d1.g ∧ m % 2 ^ (sd + 1) = (s ^^^ 2 ^ sd) % 2 ^ (sd + 1) then ip
      else if m < 2 ^ d1.g ∧ m % 2 ^ (sd + 1) = s % 2 ^ (sd + 1) then sp
      else d1.pid m := by
  by_cases h1 : m < 2 ^ d1.g ∧ m % 2 ^ (sd + 1) = (s ^^^ 2 ^ sd) % 2 ^ (sd + 1)
  · simp [splitDir, updClass, h1]
  · by_cases h2 : m < 2 ^ d1.g ∧ m % 2 ^ (sd + 1) = s % 2 ^ (sd + 1)
    · simp [splitDir, updClass, upd, h1, h2]
    · have hne : ¬ m = s ^^^ 2 ^ sd := by
        rintro rfl
        exact h1 ⟨him, rfl⟩
      simp [splitDir, updClass, upd, h1, h2, hne]

theorem splitDir_ld (d1 : Dir) (s sd sp ip : Nat)
    (hs : s < 2 ^ d1.g) (him : s ^^^ 2 ^ sd < 2 ^ d1.g) (m : Nat) :
    (splitDir d1 s sd sp ip).ld m =
      if m < 2 ^ d1.g ∧ m % 2 ^ (sd + 1) = (s ^^^ 2 ^ sd) % 2 ^ (sd + 1) then sd + 1
      else if m < 2 ^ d1.g ∧ m % 2 ^ (sd + 1) = s % 2 ^ (sd + 1) then sd + 1
      else d1.ld m := by
  by_cases h1 : m < 2 ^ d1.g ∧ m % 2 ^ (sd + 1) = (s ^^^ 2 ^ sd) % 2 ^ (sd + 1)
  · simp [splitDir, updClass, h1]
  · by_cases h2 : m < 2 ^ d1.g ∧ m % 2 ^ (sd + 1) = s % 2 ^ (sd + 1)
    · simp [splitDir, updClass, upd, h1, h2]
    · have hne : ¬ m = s ^^^ 2 ^ sd := by
        rintro rfl
        exact h1 ⟨him, rfl⟩
      have hnes : ¬ m = s := by
        rintro rfl
        exact h2 ⟨hs, rfl⟩
      simp [splitDir, updClass, upd, h1, h2, hne, hnes]

end EHT

namespace EHT

open Util

theorem splitDir_inv (d1 : Dir) (s sd sp ip npid : Nat)
    (hInv : DirInv d1) (hCon : LdConsist d1)
    (hFr : ∀ i, i < 2 ^ d1.g → d1.pid i < npid)
    (hsd : sd < d1.g)
    (hs : s < 2 ^ d1.g)
    (hld : d1.ld s = sd)
    (hpid : d1.pid s = sp)
    (hip : ip = npid) :
    DirInv (splitDir d1 s sd sp ip) ∧ LdConsist (splitDir d1 s sd sp ip) ∧
      ∀ i, i < 2 ^ (splitDir d1 s sd sp ip).g →
        (splitDir d1 s sd sp ip).pid i < npid + 1 := by
  have hpow : (2 : Nat) ^ sd < 2 ^ d1.g := Nat.pow_lt_pow_right (by omega) hsd
  have him : s ^^^ 2 ^ sd < 2 ^ d1.g := Nat.xor_lt_two_pow hs hpow
  have hsp_lt : sp < npid := hpid ▸ hFr s hs
  have himix : (s ^^^ 2 ^ sd) % 2 ^ sd = s % 2 ^ sd := xor_two_pow_mod_self s sd
  have hdistinct : (s ^^^ 2 ^ sd) % 2 ^ (sd + 1) ≠ s % 2 ^ (sd + 1) :=
    xor_two_pow_mod_succ_ne s sd
  have descS : ∀ {m : Nat}, m % 2 ^ (sd + 1) = s % 2 ^ (sd + 1) →
      m % 2 ^ sd = s % 2 ^ sd := fun h => mod_pow_descend sd (sd + 1) (by omega) h
  have descI : ∀ {m : Nat}, m % 2 ^ (sd + 1) = (s ^^^ 2 ^ sd) % 2 ^ (sd + 1) →
      m % 2 ^ sd = s % 2 ^ sd := by
    intro m h
    have := mod_pow_descend sd (sd + 1) (by omega) h
    rw [this, himix]
  have keyS : ∀ m, m < 2 ^ d1.g →
      ¬ m % 2 ^ (sd + 1) = s % 2 ^ (sd + 1) →
      ¬ m % 2 ^ (sd + 1) = (s ^^^ 2 ^ sd) % 2 ^ (sd + 1) →
      d1.pid m = sp → False := by
    intro m hm hnS hnI hpm
    have hpe : d1.pid m = d1.pid s := by rw [hpm, hpid]
    have hmod : m % 2 ^ d1.ld m = s % 2 ^ d1.ld m := ((hInv m hm).2 s hs).mp hpe
    have hldm : d1.ld m = sd := by rw [hCon m hm s hs hpe, hld]
    rw [hldm] at hmod
    rcases mod_succ_cases hmod with hc | hc
    · exact hnS hc
    · exact hnI hc
  have keyO : ∀ m j, m < 2 ^ d1.g → j < 2 ^ d1.g →
      ¬ m % 2 ^ (sd + 1) = s % 2 ^ (sd + 1) →
      ¬ m % 2 ^ (sd + 1) = (s ^^^ 2 ^ sd) % 2 ^ (sd + 1) →
      j % 2 ^ sd = s % 2 ^ sd →
      m % 2 ^ d1.ld m = j % 2 ^ d1.ld m → False := by
    intro m j hm hj hnS hnI hjs hmj
    rcases Nat.lt_or_ge sd (d1.ld m) with hgt | hle
    · have h1 : m % 2 ^ sd = j % 2 ^ sd := mod_pow_descend sd (d1.ld m) (by omega) hmj
      have h2 : m % 2 ^ sd = s % 2 ^ sd := by rw [h1, hjs]
      rcases mod_succ_cases h2 with hc | hc
      · exact hnS hc
      · exact hnI hc
    · have h1 : j % 2 ^ d1.ld m = s % 2 ^ d1.ld m := mod_pow_descend _ sd hle hjs
      have h2 : m % 2 ^ d1.ld m = s % 2 ^ d1.ld m := by rw [hmj, h1]
      have hpe : d1.pid m = d1.pid s := ((hInv m hm).2 s hs).mpr h2
      exact keyS m hm hnS hnI (by rw [hpe, hpid])
  have pidc := splitDir_pid d1 s sd sp ip hs him
  have ldc := splitDir_ld d1 s sd sp ip hs him
  refine ⟨?_, ?_, ?_⟩
  · -- DirInv
    intro i hi
    have hi' : i < 2 ^ d1.g := hi
    by_cases hIi : i % 2 ^ (sd + 1) = (s ^^^ 2 ^ sd) % 2 ^ (sd + 1)
    · -- i in the image class
      have hpidi : (splitDir d1 s sd sp ip).pid i = ip := by rw [pidc i, if_pos ⟨hi', hIi⟩]
      have hldi : (splitDir d1 s sd sp ip).ld i = sd + 1 := by rw [ldc i, if_pos ⟨hi', hIi⟩]
      refine ⟨by rw [hldi, splitDir_g]; omega, ?_⟩
      intro j hj
      have hj' : j < 2 ^ d1.g := hj
      rw [hpidi, hldi, pidc j]
      by_cases hIj : j % 2 ^ (sd + 1) = (s ^^^ 2 ^ sd) % 2 ^ (sd + 1)
      · rw [if_pos ⟨hj', hIj⟩]
        simp [hIi.trans hIj.symm]
      · by_cases hSj : j % 2 ^ (sd + 1) = s % 2 ^ (sd + 1)
        · rw [if_neg (by simp [hIj]), if_pos ⟨hj', hSj⟩]
          constructor
          · intro hc; omega
          · intro hc
            exact absurd (by rw [← hIi, hc, hSj]) hdistinct
        · rw [if_neg (by simp [hIj]), if_neg (by simp [hSj])]
          constructor
          · intro hc
            have := hFr j hj'
            omega
          · intro hc
            exact absurd (by rw [← hc]; exact hIi) hIj
    · by_cases hSi : i % 2 ^ (sd + 1) = s % 2 ^ (sd + 1)
      · -- i in the split class
        have hpidi : (splitDir d1 s sd sp ip).pid i = sp := by
          rw [pidc i, if_neg (by simp [hIi]), if_pos ⟨hi', hSi⟩]
        have hldi : (splitDir d1 s sd sp ip).ld i = sd + 1 := by
          rw [ldc i, if_neg (by simp [hIi]), if_pos ⟨hi', hSi⟩]
        refine ⟨by rw [hldi, splitDir_g]; omega, ?_⟩
        intro j hj
        have hj' : j < 2 ^ d1.g := hj
        rw [hpidi, hldi, pidc j]
        by_cases hIj : j % 2 ^ (sd + 1) = (s ^^^ 2 ^ sd) % 2 ^ (sd + 1)
        · rw [if_pos ⟨hj', hIj⟩]
          constructor
          · intro hc; omega
          · intro hc
            exact absurd (by rw [← hIj, ← hc, hSi]) hdistinct
        · by_cases hSj : j % 2 ^ (sd + 1) = s % 2 ^ (sd + 1)
          · rw [if_neg (by simp [hIj]), if_pos ⟨hj', hSj⟩]
            simp [hSi.trans hSj.symm]
          · rw [if_neg (by simp [hIj]), if_neg (by simp [hSj])]
            constructor
            · intro hc
              exact (keyS j hj' hSj hIj hc.symm).elim
            · intro hc
              exact absurd (by rw [← hc]; exact hSi) hSj
      · -- i outside both classes
        have hpidi : (splitDir d1 s sd sp ip).pid i = d1.pid i := by
          rw [pidc i, if_neg (by simp [hIi]), if_neg (by simp [hSi])]
        have hldi : (splitDir d1 s sd sp ip).ld i = d1.ld i := by
          rw [ldc i, if_neg (by simp [hIi]), if_neg (by simp [hSi])]
        refine ⟨by rw [hldi, splitDir_g]; exact (hInv i hi').1, ?_⟩
        intro j hj
        have hj' : j < 2 ^ d1.g := hj
        rw [hpidi, hldi, pidc j]
        by_cases hIj : j % 2 ^ (sd + 1) = (s ^^^ 2 ^ sd) % 2 ^ (sd + 1)
        · rw [if_pos ⟨hj', hIj⟩]
          constructor
          · intro hc
            have := hFr i hi'
            omega
          · intro hc
            exact absurd hc (fun h => keyO i j hi' hj' hSi hIi (descI hIj) h)
        · by_cases hSj : j % 2 ^ (sd + 1) = s % 2 ^ (sd + 1)
          · rw [if_neg (by simp [hIj]), if_pos ⟨hj', hSj⟩]
            constructor
            · intro hc
              exact (keyS i hi' hSi hIi hc).elim
            · intro hc
              exact absurd hc (fun h => keyO i j hi' hj' hSi hIi (descS hSj) h)
          · rw [if_neg (by simp [hIj]), if_neg (by simp [hSj])]
            exact (hInv i hi').2 j hj'
  · -- LdConsist
    intro i hi j hj hpe
    have hi' : i < 2 ^ d1.g := hi
    have hj' : j < 2 ^ d1.g := hj
    rw [pidc i, pidc j] at hpe
    rw [ldc i, ldc j]
    by_cases hIi : i % 2 ^ (sd + 1) = (s ^^^ 2 ^ sd) % 2 ^ (sd + 1)
    · rw [if_pos ⟨hi', hIi⟩] at hpe ⊢
      by_cases hIj : j % 2 ^ (sd + 1) = (s ^^^ 2 ^ sd) % 2 ^ (sd + 1)
      · rw [if_pos ⟨hj', hIj⟩]
      · by_cases hSj : j % 2 ^ (sd + 1) = s % 2 ^ (sd + 1)
        · rw [if_neg (by simp [hIj]), if_pos ⟨hj', hSj⟩] at hpe
          exfalso; omega
        · rw [if_neg (by simp [hIj]), if_neg (by simp [hSj])] at hpe
          exfalso
          have := hFr j hj'
          omega
    · by_cases hSi : i % 2 ^ (sd + 1) = s % 2 ^ (sd + 1)
      · rw [if_neg (by simp [hIi]), if_pos ⟨hi', hSi⟩] at hpe ⊢
        by_cases hIj : j % 2 ^ (sd + 1) = (s ^^^ 2 ^ sd) % 2 ^ (sd + 1)
        · rw [if_pos ⟨hj', hIj⟩] at hpe
          exfalso; omega
        · by_cases hSj : j % 2 ^ (sd + 1) = s % 2 ^ (sd + 1)
          · rw [if_neg (by simp [hIj]), if_pos ⟨hj', hSj⟩]
          · rw [if_neg (by simp [hIj]), if_neg (by simp [hSj])] at hpe
            exact absurd hpe.symm (fun h => keyS j hj' hSj hIj h)
      · rw [if_neg (by simp [hIi]), if_neg (by simp [hSi])] at hpe ⊢
        by_cases hIj : j % 2 ^ (sd + 1) = (s ^^^ 2 ^ sd) % 2 ^ (sd + 1)
        · rw [if_pos ⟨hj', hIj⟩] at hpe
          exfalso
          have := hFr i hi'
          omega
        · by_cases hSj : j % 2 ^ (sd + 1) = s % 2 ^ (sd + 1)
          · rw [if_neg (by simp [hIj]), if_pos ⟨hj', hSj⟩] at hpe
            exact absurd hpe (fun h => keyS i hi' hSi hIi h)
          · rw [if_neg (by simp [hIj]), if_neg (by simp [hSj])] at hpe ⊢
            exact hCon i hi' j hj' hpe
  · -- bucket page ids stay below the bumped allocation counter
    intro i hi
    have hi' : i < 2 ^ d1.g := hi
    rw [pidc i]
    by_cases hIi : i % 2 ^ (sd + 1) = (s ^^^ 2 ^ sd) % 2 ^ (sd + 1)
    · rw [if_pos ⟨hi', hIi⟩]; omega
    · by_cases hSi : i % 2 ^ (sd + 1) = s % 2 ^ (sd + 1)
      · rw [if_neg (by simp [hIi]), if_pos ⟨hi', hSi⟩]; omega
      · rw [if_neg (by simp [hIi]), if_neg (by simp [hSi])]
        have := hFr i hi'
        omega

end EHT

namespace EHT

open Util

theorem mergeDir_g (d0 : Dir) (t im tp ip ldT : Nat) :
    (mergeDir d0 t im tp ip ldT).g = d0.g := rfl

theorem mergeDir_pid (d0 : Dir) (t im tp ip ldT : Nat)
    (ht : t < 2 ^ d0.g) (him : im < 2 ^ d0.g)
    (htp : d0.pid t = tp) (hip : d0.pid im = ip) (m : Nat) :
    (mergeDir d0 t im tp ip ldT).pid m =
      if m < 2 ^ d0.g ∧ (d0.pid m = tp ∨ d0.pid m = ip) then ip else d0.pid m := by
  by_cases hmt : m = t
  · subst hmt
    simp [mergeDir, upd, ht, htp]
  · by_cases hcond : m < 2 ^ d0.g ∧ (d0.pid m = tp ∨ d0.pid m = ip)
    · simp [mergeDir, upd, hmt, hcond]
    · simp [mergeDir, upd, hmt, hcond]

theorem mergeDir_ld (d0 : Dir) (t im tp ip ldT : Nat)
    (ht : t < 2 ^ d0.g) (him : im < 2 ^ d0.g)
    (htp : d0.pid t = tp) (hip : d0.pid im = ip) (m : Nat) :
    (mergeDir d0 t im tp ip ldT).ld m =
      if m < 2 ^ d0.g ∧ (d0.pid m = tp ∨ d0.pid m = ip) then ldT - 1 else d0.ld m := by
  by_cases hmt : m = t
  · subst hmt
    simp [mergeDir, upd, ht, htp]
  · by_cases hmi : m = im
    · subst hmi
      simp [mergeDir, upd, hmt, him, hip]
    · by_cases hcond : m < 2 ^ d0.g ∧ (d0.pid m = tp ∨ d0.pid m = ip)
      · simp [mergeDir, upd, hmt, hmi, hcond]
      · simp [mergeDir, upd, hmt, hmi, hcond]

theorem mergeDir_inv (d0 : Dir) (t tp ip ldT npid : Nat)
    (hInv : DirInv d0) (hCon : LdConsist d0)
    (hFr : ∀ i, i < 2 ^ d0.g → d0.pid i < npid)
    (ht : t < 2 ^ d0.g)
    (hldT : d0.ld t = ldT)
    (hpos : 0 < ldT)
    (himld : d0.ld (t ^^^ 2 ^ (ldT - 1)) = ldT)
    (htp : d0.pid t = tp)
    (hip : d0.pid (t ^^^ 2 ^ (ldT - 1)) = ip) :
    DirInv (mergeDir d0 t (t ^^^ 2 ^ (ldT - 1)) tp ip ldT) ∧
      LdConsist (mergeDir d0 t (t ^^^ 2 ^ (ldT - 1)) tp ip ldT) ∧
      ∀ i, i < 2 ^ (mergeDir d0 t (t ^^^ 2 ^ (ldT - 1)) tp ip ldT).g →
        (mergeDir d0 t (t ^^^ 2 ^ (ldT - 1)) tp ip ldT).pid i < npid := by
  have hldTg : ldT ≤ d0.g := hldT ▸ (hInv t ht).1
  have hpow : (2 : Nat) ^ (ldT - 1) < 2 ^ d0.g := Nat.pow_lt_pow_right (by omega) (by omega)
  have him : t ^^^ 2 ^ (ldT - 1) < 2 ^ d0.g := Nat.xor_lt_two_pow ht hpow
  have hsucc : ldT - 1 + 1 = ldT := by omega
  have himix : (t ^^^ 2 ^ (ldT - 1)) % 2 ^ (ldT - 1) = t % 2 ^ (ldT - 1) :=
    xor_two_pow_mod_self t (ldT - 1)
  have hdistinct : (t ^^^ 2 ^ (ldT - 1)) % 2 ^ ldT ≠ t % 2 ^ ldT := by
    have := xor_two_pow_mod_succ_ne t (ldT - 1)
    rwa [hsucc] at this
  -- forward: a merged slot is congruent to t on the low ldT-1 bits
  have fwd : ∀ m, m < 2 ^ d0.g → (d0.pid m = tp ∨ d0.pid m = ip) →
      m % 2 ^ (ldT - 1) = t % 2 ^ (ldT - 1) := by
    intro m hm hc
    rcases hc with hc | hc
    · have hpe : d0.pid t = d0.pid m := by rw [htp, hc]
      have := ((hInv t ht).2 m hm).mp hpe
      rw [hldT] at this
      exact (mod_pow_descend (ldT - 1) ldT (by omega) this.symm)
    · have hpe : d0.pid (t ^^^ 2 ^ (ldT - 1)) = d0.pid m := by rw [hip, hc]
      have := ((hInv _ him).2 m hm).mp hpe
      rw [himld] at this
      have h2 : m % 2 ^ (ldT - 1) = (t ^^^ 2 ^ (ldT - 1)) % 2 ^ (ldT - 1) :=
        mod_pow_descend (ldT - 1) ldT (by omega) this.symm
      rw [h2, himix]
  -- backward: a slot congruent to t on the low ldT-1 bits is merged
  have bwd : ∀ m, m < 2 ^ d0.g → m % 2 ^ (ldT - 1) = t % 2 ^ (ldT - 1) →
      d0.pid m = tp ∨ d0.pid m = ip := by
    intro m hm hmod
    have := mod_succ_cases hmod
    rw [hsucc] at this
    rcases this with hc | hc
    · left
      have := ((hInv t ht).2 m hm).mpr (by rw [hldT]; exact hc.symm)
      rw [htp] at this
      exact this.symm
    · right
      have := ((hInv _ him).2 m hm).mpr (by rw [himld]; exact hc.symm)
      rw [hip] at this
      exact this.symm
  have hip_lt : ip < npid := hip ▸ hFr _ him
  have pidc := mergeDir_pid d0 t (t ^^^ 2 ^ (ldT - 1)) tp ip ldT ht him htp hip
  have ldc := mergeDir_ld d0 t (t ^^^ 2 ^ (ldT - 1)) tp ip ldT ht him htp hip
  refine ⟨?_, ?_, ?_⟩
  · intro i hi
    have hi' : i < 2 ^ d0.g := hi
    by_cases hMi : d0.pid i = tp ∨ d0.pid i = ip
    · have hpidi : (mergeDir d0 t (t ^^^ 2 ^ (ldT - 1)) tp ip ldT).pid i = ip := by
        rw [pidc i, if_pos ⟨hi', hMi⟩]
      have hldi : (mergeDir d0 t (t ^^^ 2 ^ (ldT - 1)) tp ip ldT).ld i = ldT - 1 := by
        rw [ldc i, if_pos ⟨hi', hMi⟩]
      refine ⟨by rw [hldi, mergeDir_g]; omega, ?_⟩
      intro j hj
      have hj' : j < 2 ^ d0.g := hj
      rw [hpidi, hldi, pidc j]
      by_cases hMj : d0.pid j = tp ∨ d0.pid j = ip
      · rw [if_pos ⟨hj', hMj⟩]
        have h1 := fwd i hi' hMi
        have h2 := fwd j hj' hMj
        simp [h1.trans h2.symm]
      · rw [if_neg (by simp [hMj])]
        constructor
        · intro hc
          exact absurd (Or.inr hc.symm) hMj
        · intro hc
          have h1 := fwd i hi' hMi
          have h2 : j % 2 ^ (ldT - 1) = t % 2 ^ (ldT - 1) := by rw [← hc, h1]
          exact absurd (bwd j hj' h2) hMj
    · have hpidi : (mergeDir d0 t (t ^^^ 2 ^ (ldT - 1)) tp ip ldT).pid i = d0.pid i := by
        rw [pidc i, if_neg (by simp [hMi])]
      have hldi : (mergeDir d0 t (t ^^^ 2 ^ (ldT - 1)) tp ip ldT).ld i = d0.ld i := by
        rw [ldc i, if_neg (by simp [hMi])]
      refine ⟨by rw [hldi, mergeDir_g]; exact (hInv i hi').1, ?_⟩
      intro j hj
      have hj' : j < 2 ^ d0.g := hj
      rw [hpidi, hldi, pidc j]
      by_cases hMj : d0.pid j = tp ∨ d0.pid j = ip
      · rw [if_pos ⟨hj', hMj⟩]
        constructor
        · intro hc
          exact absurd (Or.inr hc) hMi
        · intro hc
          have h2 := fwd j hj' hMj
          exfalso
          rcases Nat.lt_or_ge (d0.ld i) (ldT - 1) with hlt | hge
          · have h3 : j % 2 ^ d0.ld i = t % 2 ^ d0.ld i :=
              mod_pow_descend (d0.ld i) (ldT - 1) (by omega) h2
            have h4 : i % 2 ^ d0.ld i = t % 2 ^ d0.ld i := by rw [hc, h3]
            have h5 := ((hInv i hi').2 t ht).mpr h4
            exact hMi (Or.inl (by rw [h5, htp]))
          · have h4 : i % 2 ^ (ldT - 1) = j % 2 ^ (ldT - 1) :=
              mod_pow_descend (ldT - 1) (d0.ld i) hge hc
            have h5 : i % 2 ^ (ldT - 1) = t % 2 ^ (ldT - 1) := by rw [h4, h2]
            exact hMi (bwd i hi' h5)
      · rw [if_neg (by simp [hMj])]
        exact (hInv i hi').2 j hj'
  · -- LdConsist
    intro i hi j hj hpe
    have hi' : i < 2 ^ d0.g := hi
    have hj' : j < 2 ^ d0.g := hj
    rw [pidc i, pidc j] at hpe
    rw [ldc i, ldc j]
    by_cases hMi : d0.pid i = tp ∨ d0.pid i = ip
    · rw [if_pos ⟨hi', hMi⟩] at hpe ⊢
      by_cases hMj : d0.pid j = tp ∨ d0.pid j = ip
      · rw [if_pos ⟨hj', hMj⟩]
      · rw [if_neg (by simp [hMj])] at hpe
        exact absurd (Or.inr hpe.symm) hMj
    · rw [if_neg (by simp [hMi])] at hpe ⊢
      by_cases hMj : d0.pid j = tp ∨ d0.pid j = ip
      · rw [if_pos ⟨hj', hMj⟩] at hpe
        exact absurd (Or.inr hpe) hMi
      · rw [if_neg (by simp [hMj])] at hpe ⊢
        exact hCon i hi' j hj' hpe
  · -- bucket page ids stay below the allocation counter
    intro i hi
    have hi' : i < 2 ^ d0.g := hi
    rw [pidc i]
    by_cases hMi : d0.pid i = tp ∨ d0.pid i = ip
    · rw [if_pos ⟨hi', hMi⟩]
      exact hip_lt
    · rw [if_neg (by simp [hMi])]
      exact hFr i hi'

end EHT

namespace EHT

open Util

theorem shrink_step_inv (d : Dir) (npid : Nat)
    (h : DirInv d ∧ LdConsist d ∧ ∀ i, i < 2 ^ d.g → d.pid i < npid)
    (hcs : canShrink d = true) :
    DirInv { d with g := d.g - 1 } ∧ LdConsist { d with g := d.g - 1 } ∧
      ∀ i, i < 2 ^ (d.g - 1) → d.pid i < npid := by
  obtain ⟨hInv, hCon, hFr⟩ := h
  have hall : ∀ i, i < 2 ^ d.g → d.ld i < d.g := by simpa [canShrink] using hcs
  have hmono : (2 : Nat) ^ (d.g - 1) ≤ 2 ^ d.g := Nat.pow_le_pow_right (by omega) (by omega)
  refine ⟨?_, ?_, ?_⟩
  · intro i hi
    have hi' : i < 2 ^ d.g := lt_of_lt_of_le hi hmono
    refine ⟨by have := hall i hi'; simpa using by omega, ?_⟩
    intro j hj
    have hj' : j < 2 ^ d.g := lt_of_lt_of_le hj hmono
    exact (hInv i hi').2 j hj'
  · intro i hi j hj hpe
    exact hCon i (lt_of_lt_of_le hi hmono) j (lt_of_lt_of_le hj hmono) hpe
  · intro i hi
    exact hFr i (lt_of_lt_of_le hi hmono)

theorem shrinkGo_inv (npid : Nat) :
    ∀ (n : Nat) (d : Dir),
      DirInv d ∧ LdConsist d ∧ (∀ i, i < 2 ^ d.g → d.pid i < npid) →
      DirInv (shrinkGo n d) ∧ LdConsist (shrinkGo n d) ∧
        ∀ i, i < 2 ^ (shrinkGo n d).g → (shrinkGo n d).pid i < npid := by
  intro n
  induction n with
  | zero => intro d h; exact h
  | succ n ih =>
    intro d h
    rw [shrinkGo]
    by_cases hcs : canShrink d = true
    · rw [if_pos hcs]
      exact ih _ (shrink_step_inv d npid h hcs)
    · rw [if_neg hcs]
      exact h

theorem shrinkDir_inv (d : Dir) (npid : Nat)
    (h : DirInv d ∧ LdConsist d ∧ ∀ i, i < 2 ^ d.g → d.pid i < npid) :
    DirInv (shrinkDir d) ∧ LdConsist (shrinkDir d) ∧
      ∀ i, i < 2 ^ (shrinkDir d).g → (shrinkDir d).pid i < npid :=
  shrinkGo_inv npid d.g d h

theorem splitStep_inv (hash : Nat → Nat) (ht ht1 : HT) (k : Nat)
    (hinv : InvHT ht) (hstep : splitStep hash ht k = some ht1) : InvHT ht1 := by
  obtain ⟨hInv, hCon, hFr⟩ := hinv
  simp only [splitStep] at hstep
  set sIdx := keyIdx hash ht.dir k with hsIdx
  set sd := ht.dir.ld sIdx with hsd0
  by_cases hmax : MAX_BUCKET_DEPTH ≤ sd
  · rw [if_pos hmax] at hstep
    exact absurd hstep (by simp)
  · rw [if_neg hmax] at hstep
    have hslt : sIdx < 2 ^ ht.dir.g := Nat.mod_lt _ (Nat.two_pow_pos _)
    set d1 := if sd = ht.dir.g then incrGlobalDepth ht.dir else ht.dir with hd1
    have hprops : DirInv d1 ∧ LdConsist d1 ∧
        (∀ i, i < 2 ^ d1.g → d1.pid i < ht.nextPid) ∧
        sd < d1.g ∧ sIdx < 2 ^ d1.g ∧ d1.ld sIdx = sd ∧
        d1.pid sIdx = d1.pid (keyIdx hash d1 k) := by
      by_cases hg : sd = ht.dir.g
      · rw [hd1, if_pos hg]
        have hlt' : sIdx < 2 ^ (ht.dir.g + 1) :=
          lt_of_lt_of_le hslt (Nat.pow_le_pow_right (by omega) (by omega))
        refine ⟨dirInv_incr ht.dir hInv, ldConsist_incr ht.dir hCon,
          pids_incr ht.dir _ hFr, ?_, ?_, ?_, ?_⟩
        · rw [show (incrGlobalDepth ht.dir).g = ht.dir.g + 1 from rfl]
          omega
        · rw [show (incrGlobalDepth ht.dir).g = ht.dir.g + 1 from rfl]
          omega
        · simp [incrGlobalDepth, hlt', Nat.mod_eq_of_lt hslt]
        · have h1 : hash k % 2 ^ (ht.dir.g + 1) < 2 ^ (ht.dir.g + 1) :=
            Nat.mod_lt _ (Nat.two_pow_pos _)
          have h2 : hash k % 2 ^ (ht.dir.g + 1) % 2 ^ ht.dir.g = sIdx := by
            rw [hsIdx, keyIdx]
            exact Nat.mod_mod_of_dvd _ (pow_dvd_pow 2 (by omega))
          simp [incrGlobalDepth, keyIdx, h1, hlt', h2, Nat.mod_eq_of_lt hslt]
      · rw [hd1, if_neg hg]
        have hle := (hInv sIdx hslt).1
        rw [← hsd0] at hle
        exact ⟨hInv, hCon, hFr, by omega, hslt, rfl, rfl⟩
    obtain ⟨hInv1, hCon1, hFr1, hsd1, hs1, hld1, hpid1⟩ := hprops
    obtain ⟨hD, hC, hP⟩ := splitDir_inv d1 sIdx sd (d1.pid (keyIdx hash d1 k))
      ht.nextPid ht.nextPid hInv1 hCon1 hFr1 hsd1 hs1 hld1 hpid1 rfl
    have hinj := Option.some.inj hstep
    rw [← hinj]
    exact ⟨hD, hC, hP⟩

end EHT

namespace EHT

open Util

theorem mergeHT_inv (ht : HT) (t : Nat) (hinv : InvHT ht) : InvHT (mergeHT ht t) := by
  obtain ⟨hInv, hCon, hFr⟩ := hinv
  simp only [mergeHT]
  by_cases h1 : 2 ^ ht.dir.g ≤ t
  · rw [if_pos h1]
    exact ⟨hInv, hCon, hFr⟩
  · rw [if_neg h1]
    by_cases h2 : ht.dir.ld t = 0
    · rw [if_pos h2]
      exact ⟨hInv, hCon, hFr⟩
    · rw [if_neg h2]
      by_cases h3 : ¬ ht.dir.ld t = ht.dir.ld (t ^^^ 2 ^ (ht.dir.ld t - 1))
      · rw [if_pos h3]
        exact ⟨hInv, hCon, hFr⟩
      · rw [if_neg h3]
        by_cases h4 : ¬ (ht.buckets (ht.dir.pid t)).isEmpty = true
        · rw [if_pos h4]
          exact ⟨hInv, hCon, hFr⟩
        · rw [if_neg h4]
          push_neg at h3
          obtain ⟨hD, hC, hP⟩ :=
            shrinkDir_inv _ ht.nextPid
              (mergeDir_inv ht.dir t (ht.dir.pid t)
                (ht.dir.pid (t ^^^ 2 ^ (ht.dir.ld t - 1))) (ht.dir.ld t) ht.nextPid
                hInv hCon hFr (by omega) rfl (by omega) h3.symm rfl rfl)
          exact ⟨hD, hC, hP⟩

theorem insertHT_inv (hash : Nat → Nat) (cap : Nat) :
    ∀ (fuel : Nat) (ht : HT) (k v : Nat), InvHT ht → InvHT (insertHT hash cap fuel ht k v).2 := by
  intro fuel
  induction fuel with
  | zero => intro ht k v h; exact h
  | succ fuel ih =>
    intro ht k v h
    simp only [insertHT]
    by_cases hfull : (ht.buckets (ht.dir.pid (keyIdx hash ht.dir k))).length < cap
    · rw [if_pos hfull]
      exact ⟨h.1, h.2.1, h.2.2⟩
    · rw [if_neg hfull]
      match hsp : splitStep hash ht k with
      | none => exact h
      | some ht1 => exact ih ht1 k v (splitStep_inv hash ht ht1 k h hsp)

theorem removeHT_inv (hash : Nat → Nat) (ht : HT) (k v : Nat) (h : InvHT ht) :
    InvHT (removeHT hash ht k v).2 := by
  simp only [removeHT]
  have hmid : InvHT { ht with
      buckets := upd ht.buckets (ht.dir.pid (keyIdx hash ht.dir k))
        (bktRemove (ht.buckets (ht.dir.pid (keyIdx hash ht.dir k)))
          k v).2 } := ⟨h.1, h.2.1, h.2.2⟩
  by_cases he : ((bktRemove (ht.buckets (ht.dir.pid (keyIdx hash ht.dir k))) k v).2).isEmpty
  · rw [if_pos he]
    exact mergeHT_inv _ _ hmid
  · rw [if_neg he]
    exact hmid

theorem initHT_inv : InvHT initHT := by
  refine ⟨?_, ?_, ?_⟩
  · intro i hi
    have hz : i = 0 := by
      have : i < 1 := hi
      omega
    subst hz
    exact ⟨by decide, fun j hj => by
      have hz : j = 0 := by
        have : j < 1 := hj
        omega
      subst hz
      simp⟩
  · intro i hi j hj _
    have hzi : i = 0 := by have : i < 1 := hi; omega
    have hzj : j = 0 := by have : j < 1 := hj; omega
    rw [hzi, hzj]
  · intro i hi
    have hz : i = 0 := by have : i < 1 := hi; omega
    subst hz
    simp [initHT]

theorem runHT_inv (hash : Nat → Nat) (cap : Nat) :
    ∀ (ops : List HOp) (ht : HT), InvHT ht → InvHT (runHT hash cap ops ht) := by
  intro ops
  induction ops with
  | nil => intro ht h; exact h
  | cons op rest ih =>
    intro ht h
    match op with
    | HOp.ins k v => exact ih _ (insertHT_inv hash cap (MAX_BUCKET_DEPTH + 2) ht k v h)
    | HOp.rem k v => exact ih _ (removeHT_inv hash ht k v h)

/-- C7: extendible-hash directory invariant preservation.  After any history
of Insert/Remove operations (each Insert including all its SplitInsert
retries, directory doublings, Merges and directory shrinks) run from the
freshly initialized table, the directory satisfies: every local depth is at
most the global depth, and two slots below `2^global_depth` hold the same
bucket page id exactly when they agree on the low `local_depth[i]` bits. -/
theorem C7_directory_invariant (hash : Nat → Nat) (cap : Nat) (ops : List HOp)
    (i : Nat) (hi : i < 2 ^ (runHT hash cap ops initHT).dir.g) :
    (runHT hash cap ops initHT).dir.ld i ≤ (runHT hash cap ops initHT).dir.g ∧
      ∀ j, j < 2 ^ (runHT hash cap ops initHT).dir.g →
        ((runHT hash cap ops initHT).dir.pid i = (runHT hash cap ops initHT).dir.pid j ↔
          i % 2 ^ (runHT hash cap ops initHT).dir.ld i =
            j % 2 ^ (runHT hash cap ops initHT).dir.ld i) :=
  (runHT_inv hash cap ops initHT initHT_inv).1 i hi

/-- Witness history (scenario S4 of the spec): with identity hash and bucket
capacity 2, inserting keys 0, 4, 2 fills bucket 0 and the third insert
forces a split with directory doubling. -/
def opsW7 : List HOp := [HOp.ins 0 10, HOp.ins 4 11, HOp.ins 2 12]

theorem C7_directory_witness :
    (0 < 2 ^ (runHT (fun k => k) 2 opsW7 initHT).dir.g ∧
        1 < 2 ^ (runHT (fun k => k) 2 opsW7 initHT).dir.g) ∧
      ((runHT (fun k => k) 2 opsW7 initHT).dir.ld 0 ≤
          (runHT (fun k => k) 2 opsW7 initHT).dir.g ∧
        ((runHT (fun k => k) 2 opsW7 initHT).dir.pid 0 =
            (runHT (fun k => k) 2 opsW7 initHT).dir.pid 1 ↔
          0 % 2 ^ (runHT (fun k => k) 2 opsW7 initHT).dir.ld 0 =
            1 % 2 ^ (runHT (fun k => k) 2 opsW7 initHT).dir.ld 0)) := by
  have h := C7_directory_invariant (fun k => k) 2 opsW7 0 (by decide)
  exact ⟨⟨by decide, by decide⟩, h.1, h.2 1 (by decide)⟩

end EHT
